import Mathlib

/-!
Verification development for the SGBV stock-analyzer core (`src/core.py`).

The engine is shallowly embedded:
* Python numbers are modelled exactly: `int` as `ℤ`, `float` as `ℚ` for all
  values produced by parsing and min-max scaling (these operations are
  closed-form rational), and as `ℝ` once the transcendental functions
  `sqrt`/`tanh` of the scoring stage enter.  IEEE rounding, `inf` and string
  forms such as `"nan"`/`"inf"` are outside the model; the one float
  behaviour that the claims depend on — `0.0/0.0` is NaN, and NaN poisons
  every subsequent `min`/`max`/arithmetic — is modelled by `Option ℝ`
  (`none` = NaN).
* `sklearn.decomposition.PCA` (an SVD) is not embedded: the vector
  `pca_scores` is an arbitrary parameter of `analyzeWith`, and every theorem
  below holds for every value of it (sklearn guarantees only its length).
* Python's in-place `row.append(score)` is modelled by pairing each row with
  its score (`Row × Option ℝ`).
-/

namespace SGBV

/-- A parsed cell: Python `int`, `float`, or the original `str`
(`parse_value` in `src/core.py` returns one of these three). -/
inductive Cell where
  | int : ℤ → Cell
  | real : ℚ → Cell
  | text : String → Cell
deriving DecidableEq, Repr

/-- A parsed table row (Python: a list of parse_value outputs). -/
abbrev Row := List Cell

/-! ### Python numeric string conversion

Models CPython `int(s)` and `float(s)` on the strings this program feeds
them: optional sign, digit groups with single underscores between digits,
optional decimal point and exponent for `float`.  The special float forms
`inf`/`infinity`/`nan` have no rational denotation and are left out of the
model (no claim touches them). -/

/-- Rest of a digit group after its first digit: `(digit | '_' digit)*`. -/
def groupCore : List Char → Bool
  | [] => true
  | ['_'] => false
  | '_' :: c :: rest => c.isDigit && groupCore rest
  | c :: rest => c.isDigit && groupCore rest

/-- A valid Python digit group: nonempty, starts and ends with a digit,
underscores only between digits. -/
def validGroup : List Char → Bool
  | [] => false
  | c :: rest => c.isDigit && groupCore rest

/-- Numeric value of a digit list (underscores removed by the caller). -/
def digitsVal (l : List Char) : ℕ :=
  l.foldl (fun a c => 10 * a + (c.toNat - 48)) 0

/-- Unsigned integer literal: value of a valid digit group. -/
def unsignedInt (l : List Char) : Option ℕ :=
  if validGroup l then some (digitsVal (l.filter Char.isDigit)) else none

/-- Python `int(s)` after whitespace stripping: optional sign then digits. -/
def pyIntChars : List Char → Option ℤ
  | '+' :: r => (unsignedInt r).map Int.ofNat
  | '-' :: r => (unsignedInt r).map (fun n => -(n : ℤ))
  | r => (unsignedInt r).map Int.ofNat

/-- Python `int(s)`: strips surrounding whitespace, then sign and digits. -/
def pyInt (s : String) : Option ℤ := pyIntChars s.trim.data

/-- Split at the first `'e'`/`'E'` (mantissa, optional exponent part). -/
def splitExp : List Char → List Char × Option (List Char)
  | [] => ([], none)
  | c :: rest =>
    if c = 'e' ∨ c = 'E' then ([], some rest)
    else
      let p := splitExp rest
      (c :: p.1, p.2)

/-- Split at the first `'.'` (integer part, optional fractional part). -/
def splitDot : List Char → List Char × Option (List Char)
  | [] => ([], none)
  | c :: rest =>
    if c = '.' then ([], some rest)
    else
      let p := splitDot rest
      (c :: p.1, p.2)

/-- Value of a float mantissa: `digits`, `digits.`, `.digits` or
`digits.digits` (each digit group validated as in Python). -/
def mantissaVal (l : List Char) : Option ℚ :=
  let p := splitDot l
  match p.2 with
  | none => (unsignedInt p.1).map (fun n => (n : ℚ))
  | some fp =>
    match p.1, fp with
    | [], [] => none
    | [], _ =>
      (unsignedInt fp).map
        (fun f => (f : ℚ) / 10 ^ (fp.filter Char.isDigit).length)
    | ip, [] => (unsignedInt ip).map (fun n => (n : ℚ))
    | ip, _ => do
      let n ← unsignedInt ip
      let f ← unsignedInt fp
      some ((n : ℚ) + (f : ℚ) / 10 ^ (fp.filter Char.isDigit).length)

/-- Python `float(s)` after whitespace stripping (exact-rational model). -/
def pyFloatChars (l : List Char) : Option ℚ :=
  let sb : ℚ × List Char :=
    match l with
    | '+' :: r => (1, r)
    | '-' :: r => (-1, r)
    | r => (1, r)
  let me := splitExp sb.2
  do
    let m ← mantissaVal me.1
    let e ← match me.2 with
      | none => some (0 : ℤ)
      | some el => pyIntChars el
    some (sb.1 * m * 10 ^ e)

/-- Python `float(s)`: strips surrounding whitespace, then parses
sign, mantissa and exponent. -/
def pyFloat (s : String) : Option ℚ := pyFloatChars s.trim.data

/-! ### Value Parser (`parse_value`, `src/core.py` lines 16–26) -/

/-- `val.replace(" ", "").replace(",", ".")` — for these single-character
patterns Python `str.replace` is exactly: drop every space, then turn every
comma into a dot. -/
def cleanChars (l : List Char) : List Char :=
  (l.filter (fun c => c ≠ ' ')).map (fun c => if c = ',' then '.' else c)

/--
```
def parse_value(val: str):
    if val == "NC" or val == "-":
        return 0
    clean = val.replace(" ", "").replace(",", ".")
    try:
        if "." in clean:
            return float(clean)
        else:
            return int(clean)
    except ValueError:
        return val
```
-/
def parse_value (val : String) : Cell :=
  if val = "NC" ∨ val = "-" then .int 0
  else
    let clean := cleanChars val.data
    if clean.contains '.' then
      match pyFloatChars clean with
      | some q => .real q
      | none => .text val
    else
      match pyIntChars clean with
      | some n => .int n
      | none => .text val

/-! ### Table extraction tail (`scrape`, `src/core.py` lines 28–38)

The HTTP fetch and HTML parsing are external; what is modelled is the loop
body over the extracted cell texts: rows with no cells are skipped, every
cell is parsed, and the header row is dropped (`matrix[1:] if
len(matrix) > 1 else []`). -/

def scrapeTable (rows : List (List String)) : List Row :=
  let m := (rows.filter (fun r => !r.isEmpty)).map (fun r => r.map parse_value)
  if m.length > 1 then m.drop 1 else []

/-! ### Feature extraction (`analyze`, `src/core.py` lines 45–59) -/

/-- Python `cell == 0` for a parsed cell (`row[3] != 0` test at line 48):
an `int` or `float` equal to zero; a string never equals `0`. -/
def cellIsZero : Cell → Bool
  | .int n => n = 0
  | .real q => q = 0
  | .text _ => false

/-- `np.array(..., dtype=float)` conversion of one cell: ints and floats
pass through; a string is converted like Python `float(s)` and raises
(`none`) when it is not numeric. -/
def cellToFloat : Cell → Option ℚ
  | .int n => some (n : ℚ)
  | .real q => some q
  | .text s => pyFloat s

/-- Convert a list of cells to floats, failing at the first non-numeric
cell (as `np.array(..., dtype=float)` does). -/
def cellsToFloats : List Cell → Option (List ℚ)
  | [] => some []
  | c :: cs =>
    match cellToFloat c, cellsToFloats cs with
    | some q, some qs => some (q :: qs)
    | _, _ => none

/-- One iteration of the feature-building loop: positions 2–10 of the row
are read (fewer than 11 cells is an `IndexError`), a zero closing price is
replaced by the opening price, and the nine cells are converted to float. -/
def rowFeatures (row : Row) : Except String (List ℚ) :=
  if row.length < 11 then .error "IndexError: row has fewer than 11 cells"
  else
    match cellsToFloats [row.getD 2 (.int 0),
      (if cellIsZero (row.getD 3 (.int 0)) then row.getD 2 (.int 0)
        else row.getD 3 (.int 0)),
      row.getD 4 (.int 0), row.getD 5 (.int 0), row.getD 6 (.int 0),
      row.getD 7 (.int 0), row.getD 8 (.int 0), row.getD 9 (.int 0),
      row.getD 10 (.int 0)] with
    | some fs => .ok fs
    | none => .error "ValueError: could not convert string to float"

/-- The `numeric_data` matrix (one 9-element float row per record),
built row by row as in the loop at `src/core.py` lines 46–57. -/
def numericData : List Row → Except String (List (List ℚ))
  | [] => .ok []
  | r :: rs =>
    match rowFeatures r, numericData rs with
    | .ok f, .ok fs => .ok (f :: fs)
    | .error e, _ => .error e
    | _, .error e => .error e

/-! ### Min-max scaling (`MinMaxScaler`, `src/core.py` lines 62–63)

`MinMaxScaler.fit_transform` computes per column `data_min`, `data_max`
and `scale = 1 / data_range`, where a zero range is replaced by 1
(`_handle_zeros_in_scale`), then maps `x ↦ (x - data_min) * scale`.
The matrix always has nine columns (built by `rowFeatures`). -/

/-- Smallest element of a list (`np.min`); 0 on the empty list, which the
engine never reaches (sklearn rejects empty input first). -/
def listMin {α : Type} [LinearOrder α] [Zero α] : List α → α
  | [] => 0
  | h :: t => t.foldl min h

/-- Largest element of a list (`np.max`); 0 on the empty list. -/
def listMax {α : Type} [LinearOrder α] [Zero α] : List α → α
  | [] => 0
  | h :: t => t.foldl max h

/-- Column `j` of a row-major matrix. -/
def colVals (X : List (List ℚ)) (j : ℕ) : List ℚ :=
  X.map (fun r => r.getD j 0)

/-- Per-column minimum (`X.min(axis=0)`). -/
def colMin (X : List (List ℚ)) (j : ℕ) : ℚ := listMin (colVals X j)

/-- Per-column maximum (`X.max(axis=0)`). -/
def colMax (X : List (List ℚ)) (j : ℕ) : ℚ := listMax (colVals X j)

/-- The scaling denominator: the column range, or 1 when the range is zero
(sklearn's `_handle_zeros_in_scale` degenerate-column policy). -/
def colDenom (X : List (List ℚ)) (j : ℕ) : ℚ :=
  if colMax X j - colMin X j = 0 then 1 else colMax X j - colMin X j

/-- `X_scaled = MinMaxScaler().fit_transform(X)` over the nine feature
columns. -/
def minmaxScale (X : List (List ℚ)) : List (List ℚ) :=
  X.map (fun r => (List.range 9).map
    (fun j => (r.getD j 0 - colMin X j) / colDenom X j))

/-! ### TOPSIS scoring (`src/core.py` lines 69–84) -/

/-- `benefit_idx = [2, 3, 4, 6, 7, 8]` (line 71). -/
def benefitIdx : List ℕ := [2, 3, 4, 6, 7, 8]

/-- `cost_idx = [0, 1, 5]` (line 72). -/
def costIdx : List ℕ := [0, 1, 5]

/-- The ideal-best vector after the cost-column swap: column max, except
column min on the cost columns (lines 74–79). -/
def idealBest (S : List (List ℚ)) : List ℚ :=
  (List.range 9).map (fun j => if j ∈ costIdx then colMin S j else colMax S j)

/-- The ideal-worst vector after the cost-column swap: column min, except
column max on the cost columns. -/
def idealWorst (S : List (List ℚ)) : List ℚ :=
  (List.range 9).map (fun j => if j ∈ costIdx then colMax S j else colMin S j)

/-- Squared Euclidean distance between a row and an ideal point
(exact rational part of `np.linalg.norm(row - ideal)`). -/
def sqDist (r p : List ℚ) : ℚ :=
  (List.zipWith (fun a b => (a - b) ^ 2) r p).sum

/-- Euclidean distance of a row to an ideal point. -/
noncomputable def distTo (r p : List ℚ) : ℝ :=
  Real.sqrt ((sqDist r p : ℚ) : ℝ)

open Classical in
/-- `dist_worst / (dist_best + dist_worst)` for one record (line 84).
The source divides unconditionally; in float arithmetic `0.0 / 0.0` is
NaN, modelled as `none`. -/
noncomputable def topsisScoreRow (S : List (List ℚ)) (r : List ℚ) : Option ℝ :=
  let db := distTo r (idealBest S)
  let dw := distTo r (idealWorst S)
  if db + dw = 0 then none else some (dw / (db + dw))

/-- `topsis_scores` for the whole scaled matrix. -/
noncomputable def topsisScores (S : List (List ℚ)) : List (Option ℝ) :=
  S.map (topsisScoreRow S)

/-! ### Weighted-penalty scoring (`src/core.py` lines 87–104) -/

/-- The fixed signed weight vector (lines 87–97). -/
def weights : List ℚ :=
  [-(1/5), -(1/5), -(1/5), 1/5, 1/5, -(1/5), 1/5, 1/5, 1/5]

/-- Dot product of two rational vectors (`row @ weights`). -/
def dotQ (r w : List ℚ) : ℚ := (List.zipWith (· * ·) r w).sum

/-- `weighted_scores = X_scaled @ weights - np.tanh(X[:, 5] / 50)`:
linear weighted sum over the scaled row minus the non-linear P/E penalty
computed from the un-scaled column 5 (lines 99–104). -/
noncomputable def weightedScores (S X : List (List ℚ)) : List ℝ :=
  List.zipWith
    (fun srow xrow =>
      ((dotQ srow weights : ℚ) : ℝ) - Real.tanh (((xrow.getD 5 0 : ℚ) : ℝ) / 50))
    S X

/-! ### Score combination (`src/core.py` lines 106–115) -/

/-- The `1e-9` guard in the score combiner's normalizer. -/
noncomputable def eps : ℝ := 1 / 10 ^ 9

/-- `normalize(arr) = (arr - arr.min()) / (arr.max() - arr.min() + 1e-9)`
for an all-real score vector (lines 108–109). -/
noncomputable def normalizeR (arr : List ℝ) : List ℝ :=
  arr.map (fun x => (x - listMin arr) / (listMax arr - listMin arr + eps))

/-- NaN-aware minimum: a NaN anywhere poisons `arr.min()`. -/
noncomputable def optMin (l : List (Option ℝ)) : Option ℝ :=
  (l.mapM id).map listMin

/-- NaN-aware maximum. -/
noncomputable def optMax (l : List (Option ℝ)) : Option ℝ :=
  (l.mapM id).map listMax

/-- `normalize` applied to a score vector that may hold NaN entries:
if any entry is NaN then min and max are NaN and every output is NaN;
otherwise the usual affine rescaling is applied entrywise. -/
noncomputable def normalizeOpt (arr : List (Option ℝ)) : List (Option ℝ) :=
  match optMin arr, optMax arr with
  | some m, some M =>
    arr.map (fun x => x.map (fun v => (v - m) / (M - m + eps)))
  | _, _ => arr.map (fun _ => none)

/-- Pointwise ternary zip (numpy elementwise arithmetic over three
equal-length vectors). -/
def zipWith3 {α β γ δ : Type} (f : α → β → γ → δ) :
    List α → List β → List γ → List δ
  | a :: as, b :: bs, c :: cs => f a b c :: zipWith3 f as bs cs
  | _, _, _ => []

/-- `final_score = (pca_norm + topsis_norm + weighted_norm) / 3`
(line 115); a NaN TOPSIS entry makes the whole mean NaN. -/
noncomputable def finalScores (pcaN : List ℝ) (topsisN : List (Option ℝ))
    (weightedN : List ℝ) : List (Option ℝ) :=
  zipWith3 (fun p t w => t.map (fun tv => (p + tv + w) / 3)) pcaN topsisN weightedN

/-! ### Ranking (`src/core.py` lines 117–124)

`row.append(float(final_score[i]))` followed by
`sorted(matrix, key=lambda r: r[-1], reverse=True)`.  The appended score is
modelled as a paired component; CPython's `sorted` with `reverse=True` is a
stable descending sort in which an element moves ahead of another only when
its key compares strictly greater, and every comparison against NaN is
false. -/

/-- A ranked record: the original row plus its appended composite score. -/
abbrev Scored := Row × Option ℝ

/-- Python `<` on float keys: false whenever either side is NaN. -/
def oLt (a b : Option ℝ) : Prop :=
  match a, b with
  | some x, some y => x < y
  | _, _ => False

/-- Non-increasing key order on real (non-NaN) keys. -/
def oGe (a b : Option ℝ) : Prop :=
  match a, b with
  | some x, some y => y ≤ x
  | _, _ => False

open Classical in
/-- Insert a record into an already ranked list: it goes after every
record not comparing strictly below it (the placement a stable descending
sort gives the latest-scanned element). -/
noncomputable def insertScored (x : Scored) : List Scored → List Scored
  | [] => [x]
  | y :: ys => if oLt y.2 x.2 then x :: y :: ys else y :: insertScored x ys

/-- Stable descending sort by the appended score
(`sorted(matrix, key=lambda r: r[-1], reverse=True)`). -/
noncomputable def sortScored (l : List Scored) : List Scored :=
  l.foldl (fun acc x => insertScored x acc) []

/-- The Ranker: append each composite score to its record, then sort
descending by score. -/
noncomputable def rank (matrix : List Row) (scores : List (Option ℝ)) :
    List Scored :=
  sortScored (matrix.zip scores)

open Classical in
/-- The records carrying a given composite score, in sequence order
(used to state sort stability). -/
noncomputable def withScore (q : ℝ) (l : List Scored) : List Scored :=
  l.filter (fun p => decide (p.2 = some q))

/-! ### The full engine (`analyze`, `src/core.py` lines 41–124) -/

/--
`analyze(matrix)` with the PCA projection abstracted: `pca` stands for the
vector `pca_scores` returned by `PCA(n_components=1).fit_transform(X_scaled)`
(an SVD, not embedded; sklearn guarantees only `len(pca) == len(matrix)`,
and every theorem below holds for every value of `pca`).

Failure cases are those of the source: a short row (`IndexError`), a
non-numeric cell (`ValueError` in `np.array`), and an empty record set —
`np.array([])` is a 1-D size-0 array, which `MinMaxScaler.fit_transform`
rejects (`check_array` raises `ValueError`).
-/
noncomputable def analyzeWith (pca : List ℝ) (matrix : List Row) :
    Except String (List Scored) :=
  match numericData matrix with
  | .error e => .error e
  | .ok feats =>
    if feats.isEmpty then
      .error "ValueError: empty array passed to MinMaxScaler"
    else
      let S := minmaxScale feats
      let pcaN := normalizeR pca
      let topsisN := normalizeOpt (topsisScores S)
      let weightedN := normalizeR (weightedScores S feats)
      .ok (rank matrix (finalScores pcaN topsisN weightedN))

/-- The scrape-then-analyze pipeline of `main.py` (`ScrapingThread.run`):
`analyze(scrape())`, with the fetched cell texts and the PCA vector as
parameters. -/
noncomputable def pipeline (pca : List ℝ) (rows : List (List String)) :
    Except String (List Scored) :=
  analyzeWith pca (scrapeTable rows)

/-! ## Lemmas: list minima and maxima -/

section MinMax

variable {α : Type} [LinearOrder α]

lemma foldl_min_le_init (t : List α) (a : α) : t.foldl min a ≤ a := by
  induction t generalizing a with
  | nil => exact le_refl a
  | cons b t ih => exact le_trans (ih (min a b)) (min_le_left a b)

lemma foldl_min_le_of_mem {x : α} (t : List α) (a : α) (hx : x ∈ t) :
    t.foldl min a ≤ x := by
  induction t generalizing a with
  | nil => cases hx
  | cons b t ih =>
    rcases List.mem_cons.mp hx with h | h
    · subst h
      exact le_trans (foldl_min_le_init t (min a x)) (min_le_right a x)
    · exact ih (min a b) h

lemma foldl_min_choice (t : List α) (a : α) :
    t.foldl min a = a ∨ t.foldl min a ∈ t := by
  induction t generalizing a with
  | nil => exact Or.inl rfl
  | cons b t ih =>
    rcases ih (min a b) with h | h
    · rcases min_choice a b with h2 | h2
      · exact Or.inl ((List.foldl_cons _ _ ▸ h).trans h2)
      · exact Or.inr (by rw [List.foldl_cons, h, h2]; exact List.mem_cons_self b t)
    · exact Or.inr (List.mem_cons_of_mem b (List.foldl_cons _ _ ▸ h))

lemma init_le_foldl_max (t : List α) (a : α) : a ≤ t.foldl max a := by
  induction t generalizing a with
  | nil => exact le_refl a
  | cons b t ih => exact le_trans (le_max_left a b) (ih (max a b))

lemma mem_le_foldl_max {x : α} (t : List α) (a : α) (hx : x ∈ t) :
    x ≤ t.foldl max a := by
  induction t generalizing a with
  | nil => cases hx
  | cons b t ih =>
    rcases List.mem_cons.mp hx with h | h
    · subst h
      exact le_trans (le_max_right a x) (init_le_foldl_max t (max a x))
    · exact ih (max a b) h

lemma foldl_max_choice (t : List α) (a : α) :
    t.foldl max a = a ∨ t.foldl max a ∈ t := by
  induction t generalizing a with
  | nil => exact Or.inl rfl
  | cons b t ih =>
    rcases ih (max a b) with h | h
    · rcases max_choice a b with h2 | h2
      · exact Or.inl ((List.foldl_cons _ _ ▸ h).trans h2)
      · exact Or.inr (by rw [List.foldl_cons, h, h2]; exact List.mem_cons_self b t)
    · exact Or.inr (List.mem_cons_of_mem b (List.foldl_cons _ _ ▸ h))

variable [Zero α]

lemma listMin_le_of_mem {l : List α} {x : α} (hx : x ∈ l) : listMin l ≤ x := by
  cases l with
  | nil => cases hx
  | cons h t =>
    rcases List.mem_cons.mp hx with h1 | h1
    · subst h1; exact foldl_min_le_init t x
    · exact foldl_min_le_of_mem t h h1

lemma le_listMax_of_mem {l : List α} {x : α} (hx : x ∈ l) : x ≤ listMax l := by
  cases l with
  | nil => cases hx
  | cons h t =>
    rcases List.mem_cons.mp hx with h1 | h1
    · subst h1; exact init_le_foldl_max t x
    · exact mem_le_foldl_max t h h1

lemma listMin_mem {l : List α} (hne : l ≠ []) : listMin l ∈ l := by
  cases l with
  | nil => exact absurd rfl hne
  | cons h t =>
    rcases foldl_min_choice t h with h1 | h1
    · rw [listMin, h1]; exact List.mem_cons_self h t
    · exact List.mem_cons_of_mem h (by rw [listMin]; exact h1)

lemma listMax_mem {l : List α} (hne : l ≠ []) : listMax l ∈ l := by
  cases l with
  | nil => exact absurd rfl hne
  | cons h t =>
    rcases foldl_max_choice t h with h1 | h1
    · rw [listMax, h1]; exact List.mem_cons_self h t
    · exact List.mem_cons_of_mem h (by rw [listMax]; exact h1)

lemma listMin_le_listMax {l : List α} (hne : l ≠ []) : listMin l ≤ listMax l := by
  cases l with
  | nil => exact absurd rfl hne
  | cons h t =>
    exact le_trans (listMin_le_of_mem (List.mem_cons_self h t))
      (le_listMax_of_mem (List.mem_cons_self h t))

end MinMax

/-! ## Lemmas: the Normalizer -/

lemma colVals_ne_nil {X : List (List ℚ)} (hne : X ≠ []) (j : ℕ) :
    colVals X j ≠ [] := by
  simpa [colVals] using hne

lemma colMin_le_colMax {X : List (List ℚ)} (hne : X ≠ []) (j : ℕ) :
    colMin X j ≤ colMax X j :=
  listMin_le_listMax (colVals_ne_nil hne j)

lemma colDenom_pos (X : List (List ℚ)) (j : ℕ) : 0 < colDenom X j := by
  unfold colDenom
  split
  · exact one_pos
  · rename_i h
    rcases eq_or_ne X [] with hX | hX
    · exact absurd (by simp [colMax, colMin, colVals, hX, listMin, listMax]) h
    · have h1 : colMin X j ≤ colMax X j := colMin_le_colMax hX j
      have h2 : colMin X j ≠ colMax X j := fun he => h (by rw [he, sub_self])
      exact sub_pos.mpr (lt_of_le_of_ne h1 h2)

lemma getD_range_map {β : Type} (f : ℕ → β) (d : β) {j n : ℕ} (hj : j < n) :
    ((List.range n).map f).getD j d = f j := by
  have hlen : j < ((List.range n).map f).length := by
    simpa using hj
  rw [List.getD_eq_getElem _ _ hlen]
  simp

lemma colVals_minmaxScale (X : List (List ℚ)) {j : ℕ} (hj : j < 9) :
    colVals (minmaxScale X) j =
      (colVals X j).map (fun x => (x - colMin X j) / colDenom X j) := by
  simp only [colVals, minmaxScale, List.map_map]
  refine List.map_congr_left (fun r _ => ?_)
  simp only [Function.comp]
  exact getD_range_map _ _ hj

lemma listMin_map_affine {l : List ℚ} (hne : l ≠ []) {m c : ℚ} (hc : 0 < c) :
    listMin (l.map (fun x => (x - m) / c)) = (listMin l - m) / c := by
  apply le_antisymm
  · exact listMin_le_of_mem (List.mem_map_of_mem _ (listMin_mem hne))
  · have h2 : listMin (l.map (fun x => (x - m) / c)) ∈
        l.map (fun x => (x - m) / c) :=
      listMin_mem (by simpa using hne)
    rcases List.mem_map.mp h2 with ⟨x, hx, hfx⟩
    rw [← hfx]
    exact (div_le_div_iff_of_pos_right hc).mpr
      (sub_le_sub_right (listMin_le_of_mem hx) m)

lemma listMax_map_affine {l : List ℚ} (hne : l ≠ []) {m c : ℚ} (hc : 0 < c) :
    listMax (l.map (fun x => (x - m) / c)) = (listMax l - m) / c := by
  apply le_antisymm
  · have h2 : listMax (l.map (fun x => (x - m) / c)) ∈
        l.map (fun x => (x - m) / c) :=
      listMax_mem (by simpa using hne)
    rcases List.mem_map.mp h2 with ⟨x, hx, hfx⟩
    rw [← hfx]
    exact (div_le_div_iff_of_pos_right hc).mpr
      (sub_le_sub_right (le_listMax_of_mem hx) m)
  · exact le_listMax_of_mem (List.mem_map_of_mem _ (listMax_mem hne))

lemma colMin_minmaxScale {X : List (List ℚ)} (hne : X ≠ []) {j : ℕ}
    (hj : j < 9) : colMin (minmaxScale X) j = 0 := by
  unfold colMin
  rw [colVals_minmaxScale X hj]
  rw [listMin_map_affine (colVals_ne_nil hne j) (colDenom_pos X j)]
  simp [colMin]

lemma colMax_minmaxScale {X : List (List ℚ)} (hne : X ≠ []) {j : ℕ}
    (hj : j < 9) (hnd : colMin X j ≠ colMax X j) :
    colMax (minmaxScale X) j = 1 := by
  unfold colMax
  rw [colVals_minmaxScale X hj]
  rw [listMax_map_affine (colVals_ne_nil hne j) (colDenom_pos X j)]
  have hr : colMax X j - colMin X j ≠ 0 :=
    sub_ne_zero.mpr (Ne.symm hnd)
  rw [colDenom, if_neg hr]
  exact div_self hr

lemma minmaxScale_degenerate (X : List (List ℚ)) {j : ℕ} (hj : j < 9)
    (hd : colMin X j = colMax X j) :
    ∀ v ∈ colVals (minmaxScale X) j, v = 0 := by
  intro v hv
  rw [colVals_minmaxScale X hj] at hv
  rcases List.mem_map.mp hv with ⟨x, hx, hfx⟩
  have h1 : x = colMin X j :=
    le_antisymm (hd ▸ le_listMax_of_mem hx) (listMin_le_of_mem hx)
  rw [← hfx, h1, sub_self, zero_div]

/-! ## Lemmas: TOPSIS distances and scores -/

lemma sqDist_nonneg : ∀ r p : List ℚ, 0 ≤ sqDist r p
  | [], _ => by simp [sqDist]
  | _ :: _, [] => by simp [sqDist]
  | a :: r, b :: p => by
    have h := sqDist_nonneg r p
    simp only [sqDist, List.zipWith_cons_cons, List.sum_cons] at h ⊢
    exact add_nonneg (sq_nonneg _) h

lemma sqDist_self : ∀ r : List ℚ, sqDist r r = 0
  | [] => by simp [sqDist]
  | a :: r => by
    have h := sqDist_self r
    simp only [sqDist, List.zipWith_cons_cons, List.sum_cons] at h ⊢
    simp [h]

lemma sum_eq_zero_mem {l : List ℚ} (h0 : ∀ x ∈ l, 0 ≤ x) (hs : l.sum = 0) :
    ∀ x ∈ l, x = 0 := by
  induction l with
  | nil => simp
  | cons a t ih =>
    simp only [List.sum_cons] at hs
    have ha : 0 ≤ a := h0 a (List.mem_cons_self a t)
    have ht : 0 ≤ t.sum :=
      List.sum_nonneg (fun x hx => h0 x (List.mem_cons_of_mem a hx))
    have ha0 : a = 0 := le_antisymm (by linarith) ha
    intro x hx
    rcases List.mem_cons.mp hx with h | h
    · rw [h]; exact ha0
    · exact ih (fun y hy => h0 y (List.mem_cons_of_mem a hy)) (by linarith) x h

lemma sqDist_eq_zero_pointwise {r p : List ℚ} (h : sqDist r p = 0) {j : ℕ}
    (hjr : j < r.length) (hjp : j < p.length) : r.getD j 0 = p.getD j 0 := by
  have hlen : j < (List.zipWith (fun a b => (a - b) ^ 2) r p).length := by
    rw [List.length_zipWith]
    exact lt_min hjr hjp
  have hmem : (List.zipWith (fun a b => (a - b) ^ 2) r p)[j] ∈
      List.zipWith (fun a b => (a - b) ^ 2) r p := List.getElem_mem hlen
  have h0 : ∀ x ∈ List.zipWith (fun a b => (a - b) ^ 2) r p, 0 ≤ x := by
    intro x hx
    rcases List.mem_iff_getElem.mp hx with ⟨i, hi, hix⟩
    rw [← hix, List.getElem_zipWith]
    exact sq_nonneg _
  have hz := sum_eq_zero_mem h0 h _ hmem
  rw [List.getElem_zipWith] at hz
  have := sq_eq_zero_iff.mp hz
  have heq := sub_eq_zero.mp this
  rw [List.getD_eq_getElem r 0 hjr, List.getD_eq_getElem p 0 hjp]
  exact heq

lemma distTo_nonneg (r p : List ℚ) : 0 ≤ distTo r p := Real.sqrt_nonneg _

lemma distTo_eq_zero_iff (r p : List ℚ) : distTo r p = 0 ↔ sqDist r p = 0 := by
  unfold distTo
  rw [Real.sqrt_eq_zero (by exact_mod_cast sqDist_nonneg r p)]
  exact_mod_cast Iff.rfl

lemma topsisDen_eq_zero_iff (S : List (List ℚ)) (r : List ℚ) :
    distTo r (idealBest S) + distTo r (idealWorst S) = 0 ↔
      sqDist r (idealBest S) = 0 ∧ sqDist r (idealWorst S) = 0 := by
  rw [add_eq_zero_iff_of_nonneg (distTo_nonneg _ _) (distTo_nonneg _ _),
    distTo_eq_zero_iff, distTo_eq_zero_iff]

lemma length_idealBest (S : List (List ℚ)) : (idealBest S).length = 9 := by
  simp [idealBest]

lemma length_idealWorst (S : List (List ℚ)) : (idealWorst S).length = 9 := by
  simp [idealWorst]

lemma minmaxScale_row_length {X : List (List ℚ)} {r : List ℚ}
    (hr : r ∈ minmaxScale X) : r.length = 9 := by
  rcases List.mem_map.mp hr with ⟨x, _, hfx⟩
  simp [← hfx]

lemma getD_idealBest (S : List (List ℚ)) {j : ℕ} (hj : j < 9) :
    (idealBest S).getD j 0 = if j ∈ costIdx then colMin S j else colMax S j :=
  getD_range_map _ _ hj

lemma getD_idealWorst (S : List (List ℚ)) {j : ℕ} (hj : j < 9) :
    (idealWorst S).getD j 0 = if j ∈ costIdx then colMax S j else colMin S j :=
  getD_range_map _ _ hj

/-- In a matrix with at least one non-constant column, no scaled record can
coincide with both ideal points, so the TOPSIS denominator never vanishes. -/
lemma topsisDen_ne_zero {X : List (List ℚ)} (hne : X ≠ []) {j : ℕ}
    (hj : j < 9) (hnd : colMin X j ≠ colMax X j) {r : List ℚ}
    (hr : r ∈ minmaxScale X) :
    distTo r (idealBest (minmaxScale X)) +
      distTo r (idealWorst (minmaxScale X)) ≠ 0 := by
  intro h
  rcases (topsisDen_eq_zero_iff (minmaxScale X) r).mp h with ⟨hb, hw⟩
  have hrlen : r.length = 9 := minmaxScale_row_length hr
  have h1 : r.getD j 0 = (idealBest (minmaxScale X)).getD j 0 :=
    sqDist_eq_zero_pointwise hb (by rw [hrlen]; exact hj)
      (by rw [length_idealBest]; exact hj)
  have h2 : r.getD j 0 = (idealWorst (minmaxScale X)).getD j 0 :=
    sqDist_eq_zero_pointwise hw (by rw [hrlen]; exact hj)
      (by rw [length_idealWorst]; exact hj)
  have h3 := (h1.symm.trans h2)
  rw [getD_idealBest _ hj, getD_idealWorst _ hj] at h3
  have h4 : colMin (minmaxScale X) j = colMax (minmaxScale X) j := by
    by_cases hc : j ∈ costIdx
    · simpa [hc] using h3
    · simpa [hc] using h3.symm
  rw [colMin_minmaxScale hne hj, colMax_minmaxScale hne hj hnd] at h4
  exact zero_ne_one h4

lemma topsisScoreRow_of_den_ne {S : List (List ℚ)} {r : List ℚ}
    (h : distTo r (idealBest S) + distTo r (idealWorst S) ≠ 0) :
    topsisScoreRow S r =
      some (distTo r (idealWorst S) /
        (distTo r (idealBest S) + distTo r (idealWorst S))) := by
  unfold topsisScoreRow
  exact if_neg h

lemma topsisScoreRow_of_den_zero {S : List (List ℚ)} {r : List ℚ}
    (h : distTo r (idealBest S) + distTo r (idealWorst S) = 0) :
    topsisScoreRow S r = none := by
  unfold topsisScoreRow
  exact if_pos h

/-- C7 (amended): provided some feature column is non-constant, every
record's TOPSIS score `d_worst / (d_best + d_worst)` is a real number in
`[0, 1]`; a scaled record equal to the ideal-best point scores 1 and one
equal to the ideal-worst point scores 0. -/
theorem topsis_score_bounds (X : List (List ℚ)) (hne : X ≠ []) (j : ℕ)
    (hj : j < 9) (hnd : colMin X j ≠ colMax X j) (r : List ℚ)
    (hr : r ∈ minmaxScale X) :
    (∃ s, topsisScoreRow (minmaxScale X) r = some s ∧ 0 ≤ s ∧ s ≤ 1) ∧
    (r = idealBest (minmaxScale X) →
      topsisScoreRow (minmaxScale X) r = some 1) ∧
    (r = idealWorst (minmaxScale X) →
      topsisScoreRow (minmaxScale X) r = some 0) := by
  have hden := topsisDen_ne_zero hne hj hnd hr
  have hden_pos : 0 < distTo r (idealBest (minmaxScale X)) +
      distTo r (idealWorst (minmaxScale X)) :=
    lt_of_le_of_ne (add_nonneg (distTo_nonneg _ _) (distTo_nonneg _ _))
      (Ne.symm hden)
  refine ⟨⟨_, topsisScoreRow_of_den_ne hden, ?_, ?_⟩, ?_, ?_⟩
  · exact div_nonneg (distTo_nonneg _ _) (le_of_lt hden_pos)
  · exact (div_le_one hden_pos).mpr (le_add_of_nonneg_left (distTo_nonneg _ _))
  · intro hbest
    have hdb : distTo r (idealBest (minmaxScale X)) = 0 := by
      rw [distTo_eq_zero_iff, hbest]
      exact sqDist_self _
    have hdw : distTo r (idealWorst (minmaxScale X)) ≠ 0 := by
      intro h0
      exact hden (by rw [hdb, h0, add_zero])
    rw [topsisScoreRow_of_den_ne hden, hdb, zero_add, div_self hdw]
  · intro hworst
    have hdw : distTo r (idealWorst (minmaxScale X)) = 0 := by
      rw [distTo_eq_zero_iff, hworst]
      exact sqDist_self _
    rw [topsisScoreRow_of_den_ne hden, hdw, zero_div]

/-! ## Lemmas: degenerate (all-columns-constant) data -/

lemma col_const {X : List (List ℚ)} {r : List ℚ} (hne : X ≠ [])
    (hall : ∀ x ∈ X, x = r) (j : ℕ) :
    colMin X j = r.getD j 0 ∧ colMax X j = r.getD j 0 := by
  have hv : ∀ v ∈ colVals X j, v = r.getD j 0 := by
    intro v hv
    rcases List.mem_map.mp hv with ⟨x, hx, hfx⟩
    rw [← hfx, hall x hx]
  exact ⟨hv _ (listMin_mem (colVals_ne_nil hne j)),
    hv _ (listMax_mem (colVals_ne_nil hne j))⟩

lemma minmaxScale_const {X : List (List ℚ)} {r : List ℚ} (hne : X ≠ [])
    (hall : ∀ x ∈ X, x = r) :
    ∀ s ∈ minmaxScale X, s = (List.range 9).map (fun _ => (0 : ℚ)) := by
  intro s hs
  rcases List.mem_map.mp hs with ⟨x, hx, hfx⟩
  rw [← hfx, hall x hx]
  refine List.map_congr_left (fun j _ => ?_)
  rw [(col_const hne hall j).1, sub_self, zero_div]

lemma idealBest_const {X : List (List ℚ)} {r : List ℚ} (hne : X ≠ [])
    (hall : ∀ x ∈ X, x = r) :
    idealBest (minmaxScale X) = (List.range 9).map (fun _ => (0 : ℚ)) := by
  have hSne : minmaxScale X ≠ [] := by
    simpa [minmaxScale] using hne
  have hSall := minmaxScale_const hne hall
  refine List.map_congr_left (fun j hj => ?_)
  have hc := col_const hSne hSall j
  have h0 : ((List.range 9).map (fun _ => (0 : ℚ))).getD j 0 = 0 :=
    getD_range_map _ _ (List.mem_range.mp hj)
  have hmin0 : colMin (minmaxScale X) j = 0 := by rw [hc.1]; exact h0
  have hmax0 : colMax (minmaxScale X) j = 0 := by rw [hc.2]; exact h0
  by_cases hcost : j ∈ costIdx
  · rw [if_pos hcost]; exact hmin0
  · rw [if_neg hcost]; exact hmax0

lemma idealWorst_const {X : List (List ℚ)} {r : List ℚ} (hne : X ≠ [])
    (hall : ∀ x ∈ X, x = r) :
    idealWorst (minmaxScale X) = (List.range 9).map (fun _ => (0 : ℚ)) := by
  have hSne : minmaxScale X ≠ [] := by
    simpa [minmaxScale] using hne
  have hSall := minmaxScale_const hne hall
  refine List.map_congr_left (fun j hj => ?_)
  have hc := col_const hSne hSall j
  have h0 : ((List.range 9).map (fun _ => (0 : ℚ))).getD j 0 = 0 :=
    getD_range_map _ _ (List.mem_range.mp hj)
  have hmin0 : colMin (minmaxScale X) j = 0 := by rw [hc.1]; exact h0
  have hmax0 : colMax (minmaxScale X) j = 0 := by rw [hc.2]; exact h0
  by_cases hcost : j ∈ costIdx
  · rw [if_pos hcost]; exact hmax0
  · rw [if_neg hcost]; exact hmin0

/-- On data whose feature columns are all constant (identical records, or a
single record), every scaled record coincides with both ideal points, both
distances vanish, and the unguarded division at `src/core.py` line 84 is
`0.0 / 0.0` — NaN. -/
lemma topsis_degenerate {X : List (List ℚ)} {r : List ℚ} (hne : X ≠ [])
    (hall : ∀ x ∈ X, x = r) :
    ∀ s ∈ minmaxScale X,
      s = idealBest (minmaxScale X) ∧ s = idealWorst (minmaxScale X) ∧
      distTo s (idealBest (minmaxScale X)) = 0 ∧
      distTo s (idealWorst (minmaxScale X)) = 0 ∧
      topsisScoreRow (minmaxScale X) s = none := by
  intro s hs
  have hz := minmaxScale_const hne hall s hs
  have hb : s = idealBest (minmaxScale X) := by
    rw [hz, idealBest_const hne hall]
  have hw : s = idealWorst (minmaxScale X) := by
    rw [hz, idealWorst_const hne hall]
  have hdb : distTo s (idealBest (minmaxScale X)) = 0 := by
    rw [distTo_eq_zero_iff, ← hb]
    exact sqDist_self s
  have hdw : distTo s (idealWorst (minmaxScale X)) = 0 := by
    rw [distTo_eq_zero_iff, ← hw]
    exact sqDist_self s
  exact ⟨hb, hw, hdb, hdw, topsisScoreRow_of_den_zero (by rw [hdb, hdw, add_zero])⟩

/-- C2: the code does NOT guard the TOPSIS division.  On two identical
records both Euclidean distances are zero and `dist_worst / (dist_best +
dist_worst)` is evaluated anyway — `0.0 / 0.0`, i.e. NaN (`none`), not the
deterministic `0.5` the specification prescribes. -/
theorem topsis_division_unguarded :
    (List.range 9).map (fun _ => (0 : ℚ)) ∈
      minmaxScale [[1, 2, 3, 4, 5, 6, 7, 8, 9], [1, 2, 3, 4, 5, 6, 7, 8, 9]] ∧
    distTo ((List.range 9).map (fun _ => (0 : ℚ)))
      (idealBest (minmaxScale
        [[1, 2, 3, 4, 5, 6, 7, 8, 9], [1, 2, 3, 4, 5, 6, 7, 8, 9]])) = 0 ∧
    distTo ((List.range 9).map (fun _ => (0 : ℚ)))
      (idealWorst (minmaxScale
        [[1, 2, 3, 4, 5, 6, 7, 8, 9], [1, 2, 3, 4, 5, 6, 7, 8, 9]])) = 0 ∧
    topsisScoreRow
      (minmaxScale [[1, 2, 3, 4, 5, 6, 7, 8, 9], [1, 2, 3, 4, 5, 6, 7, 8, 9]])
      ((List.range 9).map (fun _ => (0 : ℚ))) = none ∧
    topsisScoreRow
      (minmaxScale [[1, 2, 3, 4, 5, 6, 7, 8, 9], [1, 2, 3, 4, 5, 6, 7, 8, 9]])
      ((List.range 9).map (fun _ => (0 : ℚ))) ≠ some (1 / 2) := by
  have hne : ([[1, 2, 3, 4, 5, 6, 7, 8, 9],
      [1, 2, 3, 4, 5, 6, 7, 8, 9]] : List (List ℚ)) ≠ [] := by
    simp
  have hall : ∀ x ∈ ([[1, 2, 3, 4, 5, 6, 7, 8, 9],
      [1, 2, 3, 4, 5, 6, 7, 8, 9]] : List (List ℚ)),
      x = [1, 2, 3, 4, 5, 6, 7, 8, 9] := by
    intro x hx
    rcases List.mem_cons.mp hx with h | h
    · exact h
    · simpa using h
  have hmem : (List.range 9).map (fun _ => (0 : ℚ)) ∈
      minmaxScale [[1, 2, 3, 4, 5, 6, 7, 8, 9], [1, 2, 3, 4, 5, 6, 7, 8, 9]] := by
    have hSne : minmaxScale [[1, 2, 3, 4, 5, 6, 7, 8, 9],
        [1, 2, 3, 4, 5, 6, 7, 8, 9]] ≠ [] := by
      simp [minmaxScale]
    rcases List.exists_mem_of_ne_nil _ hSne with ⟨s, hs⟩
    have := minmaxScale_const hne hall s hs
    rwa [this] at hs
  have hdeg := topsis_degenerate hne hall _ hmem
  exact ⟨hmem, hdeg.2.2.1, hdeg.2.2.2.1, hdeg.2.2.2.2, by
    rw [hdeg.2.2.2.2]; exact fun h => Option.noConfusion h⟩

/-- C7 counterexample: on two identical records (all feature columns
constant) a scaled record equal to the ideal-best point does NOT score 1 —
the unguarded division yields NaN (`none`), so the claimed bounds fail. -/
theorem topsis_bounds_cex :
    (List.range 9).map (fun _ => (0 : ℚ)) =
      idealBest (minmaxScale
        [[2, 2, 2, 2, 2, 2, 2, 2, 2], [2, 2, 2, 2, 2, 2, 2, 2, 2]]) ∧
    topsisScoreRow
      (minmaxScale [[2, 2, 2, 2, 2, 2, 2, 2, 2], [2, 2, 2, 2, 2, 2, 2, 2, 2]])
      ((List.range 9).map (fun _ => (0 : ℚ))) = none ∧
    topsisScoreRow
      (minmaxScale [[2, 2, 2, 2, 2, 2, 2, 2, 2], [2, 2, 2, 2, 2, 2, 2, 2, 2]])
      ((List.range 9).map (fun _ => (0 : ℚ))) ≠ some 1 := by
  have hne : ([[2, 2, 2, 2, 2, 2, 2, 2, 2],
      [2, 2, 2, 2, 2, 2, 2, 2, 2]] : List (List ℚ)) ≠ [] := by
    simp
  have hall : ∀ x ∈ ([[2, 2, 2, 2, 2, 2, 2, 2, 2],
      [2, 2, 2, 2, 2, 2, 2, 2, 2]] : List (List ℚ)),
      x = [2, 2, 2, 2, 2, 2, 2, 2, 2] := by
    intro x hx
    rcases List.mem_cons.mp hx with h | h
    · exact h
    · simpa using h
  have hmem : (List.range 9).map (fun _ => (0 : ℚ)) ∈
      minmaxScale [[2, 2, 2, 2, 2, 2, 2, 2, 2], [2, 2, 2, 2, 2, 2, 2, 2, 2]] := by
    have hSne : minmaxScale [[2, 2, 2, 2, 2, 2, 2, 2, 2],
        [2, 2, 2, 2, 2, 2, 2, 2, 2]] ≠ [] := by
      simp [minmaxScale]
    rcases List.exists_mem_of_ne_nil _ hSne with ⟨s, hs⟩
    have := minmaxScale_const hne hall s hs
    rwa [this] at hs
  have hdeg := topsis_degenerate hne hall _ hmem
  exact ⟨hdeg.1, hdeg.2.2.2.2, by
    rw [hdeg.2.2.2.2]; exact fun h => Option.noConfusion h⟩

/-- Witness for C7 at a concrete two-record matrix whose first scaled
record is exactly the ideal-best point: its TOPSIS score is 1 and lies in
`[0, 1]`. -/
theorem topsis_score_bounds_witness :
    (∃ s, topsisScoreRow
        (minmaxScale [[0, 0, 1, 1, 1, 0, 1, 1, 1], [1, 1, 0, 0, 0, 1, 0, 0, 0]])
        [0, 0, 1, 1, 1, 0, 1, 1, 1] = some s ∧ 0 ≤ s ∧ s ≤ 1) ∧
    topsisScoreRow
      (minmaxScale [[0, 0, 1, 1, 1, 0, 1, 1, 1], [1, 1, 0, 0, 0, 1, 0, 0, 0]])
      [0, 0, 1, 1, 1, 0, 1, 1, 1] = some 1 := by
  have hrange : List.range 9 = [0, 1, 2, 3, 4, 5, 6, 7, 8] := rfl
  have hS : minmaxScale [[0, 0, 1, 1, 1, 0, 1, 1, 1], [1, 1, 0, 0, 0, 1, 0, 0, 0]] =
      ([[0, 0, 1, 1, 1, 0, 1, 1, 1], [1, 1, 0, 0, 0, 1, 0, 0, 0]] : List (List ℚ)) := by
    norm_num [minmaxScale, hrange, colDenom, colMin, colMax, colVals,
      listMin, listMax]
  have hmem : ([0, 0, 1, 1, 1, 0, 1, 1, 1] : List ℚ) ∈
      minmaxScale [[0, 0, 1, 1, 1, 0, 1, 1, 1], [1, 1, 0, 0, 0, 1, 0, 0, 0]] := by
    rw [hS]
    exact List.mem_cons_self _ _
  have h := topsis_score_bounds
    [[0, 0, 1, 1, 1, 0, 1, 1, 1], [1, 1, 0, 0, 0, 1, 0, 0, 0]]
    (by simp) 2 (by norm_num)
    (by norm_num [colMin, colMax, colVals, listMin, listMax])
    [0, 0, 1, 1, 1, 0, 1, 1, 1] hmem
  refine ⟨h.1, h.2.1 ?_⟩
  rw [hS]
  norm_num [idealBest, hrange, costIdx, colMin, colMax, colVals, listMin, listMax]

/-- C6: for every feature matrix, after min-max scaling each of the nine
columns has minimum 0 and maximum 1, unless the column is degenerate
(`max == min`), in which case every scaled value of that column is 0;
the scaler is a pure function of its input (a new matrix is returned),
and no division error occurs for a constant column
(`colDenom` is never zero). -/
theorem normalizer_minmax_columns (X : List (List ℚ)) (hne : X ≠ [])
    (j : ℕ) (hj : j < 9) :
    (colMin X j ≠ colMax X j →
      colMin (minmaxScale X) j = 0 ∧ colMax (minmaxScale X) j = 1) ∧
    (colMin X j = colMax X j → ∀ v ∈ colVals (minmaxScale X) j, v = 0) ∧
    colDenom X j ≠ 0 := by
  refine ⟨fun hnd => ⟨colMin_minmaxScale hne hj, colMax_minmaxScale hne hj hnd⟩,
    minmaxScale_degenerate X hj, ?_⟩
  exact ne_of_gt (colDenom_pos X j)

/-- Witness for C6 at a concrete two-record matrix: column 0 is
non-constant and rescales to span `[0, 1]`; column 2 is constant and
rescales to all zeros. -/
theorem normalizer_minmax_columns_witness :
    (colMin (minmaxScale
        [[0, 0, 5, 0, 0, 0, 0, 0, 0], [1, 1, 5, 1, 1, 1, 1, 1, 1]]) 0 = 0 ∧
      colMax (minmaxScale
        [[0, 0, 5, 0, 0, 0, 0, 0, 0], [1, 1, 5, 1, 1, 1, 1, 1, 1]]) 0 = 1) ∧
    ∀ v ∈ colVals (minmaxScale
        [[0, 0, 5, 0, 0, 0, 0, 0, 0], [1, 1, 5, 1, 1, 1, 1, 1, 1]]) 2, v = 0 := by
  have h0 := normalizer_minmax_columns
    [[0, 0, 5, 0, 0, 0, 0, 0, 0], [1, 1, 5, 1, 1, 1, 1, 1, 1]]
    (by simp) 0 (by norm_num)
  have h2 := normalizer_minmax_columns
    [[0, 0, 5, 0, 0, 0, 0, 0, 0], [1, 1, 5, 1, 1, 1, 1, 1, 1]]
    (by simp) 2 (by norm_num)
  refine ⟨h0.1 ?_, h2.2.1 ?_⟩
  · norm_num [colMin, colMax, colVals, listMin, listMax]
  · norm_num [colMin, colMax, colVals, listMin, listMax]

/-! ## The Weighted-Penalty weight signs (C3) -/

/-- C3 counterexample: column 2 (`change_pct`) is a benefit column
(`benefit_idx` at `src/core.py` line 71 contains 2), yet its fixed weight
(line 90) is `-0.2`, not positive — the sign mirror fails there. -/
theorem weight_signs_cex :
    2 ∈ benefitIdx ∧ weights.getD 2 0 = -(1 / 5) ∧ ¬ 0 < weights.getD 2 0 := by
  refine ⟨by decide, by norm_num [weights], by norm_num [weights]⟩

/-- C3 (amended): the cost columns {0, 1, 5} all have negative weight, and
the benefit columns other than column 2 — {3, 4, 6, 7, 8} — all have
positive weight; benefit column 2 (`change_pct`) deviates from the mirror
rule with weight `-0.2`. -/
theorem weight_signs_amended :
    costIdx = [0, 1, 5] ∧ benefitIdx = [2, 3, 4, 6, 7, 8] ∧
    weights.getD 0 0 < 0 ∧ weights.getD 1 0 < 0 ∧ weights.getD 5 0 < 0 ∧
    0 < weights.getD 3 0 ∧ 0 < weights.getD 4 0 ∧ 0 < weights.getD 6 0 ∧
    0 < weights.getD 7 0 ∧ 0 < weights.getD 8 0 ∧
    weights.getD 2 0 < 0 ∧ weights.length = 9 := by
  refine ⟨rfl, rfl, ?_, ?_, ?_, ?_, ?_, ?_, ?_, ?_, ?_, by norm_num [weights]⟩ <;>
    norm_num [weights]

/-! ## The Value Parser (C5) -/

/-- C5: `parse_value` maps the sentinels `"NC"` and `"-"` to the integer 0;
otherwise it removes spaces and turns commas into dots, converts a string
containing `'.'` as a real number and one without as an integer, and on
conversion failure returns the original text unchanged.  In particular
`parse("NC") == 0`, `parse("-") == 0`, `parse("1 234,56") == 1234.56` and
`parse("abc") == "abc"`. -/
theorem parse_value_spec :
    parse_value "NC" = Cell.int 0 ∧
    parse_value "-" = Cell.int 0 ∧
    parse_value "1 234,56" = Cell.real (30864 / 25) ∧
    parse_value "abc" = Cell.text "abc" ∧
    (∀ s q, s ≠ "NC" → s ≠ "-" → (cleanChars s.data).contains '.' = true →
      pyFloatChars (cleanChars s.data) = some q → parse_value s = Cell.real q) ∧
    (∀ s, s ≠ "NC" → s ≠ "-" → (cleanChars s.data).contains '.' = true →
      pyFloatChars (cleanChars s.data) = none → parse_value s = Cell.text s) ∧
    (∀ s n, s ≠ "NC" → s ≠ "-" → (cleanChars s.data).contains '.' = false →
      pyIntChars (cleanChars s.data) = some n → parse_value s = Cell.int n) ∧
    (∀ s, s ≠ "NC" → s ≠ "-" → (cleanChars s.data).contains '.' = false →
      pyIntChars (cleanChars s.data) = none → parse_value s = Cell.text s) := by
  have c1 : '1'.toNat = 49 := rfl
  have c2 : '2'.toNat = 50 := rfl
  have c3 : '3'.toNat = 51 := rfl
  have c4 : '4'.toNat = 52 := rfl
  have c5 : '5'.toNat = 53 := rfl
  have c6 : '6'.toNat = 54 := rfl
  refine ⟨by decide, by decide, ?_, by decide, ?_, ?_, ?_, ?_⟩
  · norm_num +decide [parse_value, cleanChars, pyFloatChars, mantissaVal,
      splitExp, splitDot, unsignedInt, validGroup, groupCore, digitsVal,
      c1, c2, c3, c4, c5, c6]
  · intro s q h1 h2 hc hp
    simp only [parse_value]
    rw [if_neg (not_or.mpr ⟨h1, h2⟩), if_pos hc, hp]
  · intro s h1 h2 hc hp
    simp only [parse_value]
    rw [if_neg (not_or.mpr ⟨h1, h2⟩), if_pos hc, hp]
  · intro s n h1 h2 hc hp
    simp only [parse_value]
    rw [if_neg (not_or.mpr ⟨h1, h2⟩), if_neg (by rw [hc]; exact Bool.false_ne_true),
      hp]
  · intro s h1 h2 hc hp
    simp only [parse_value]
    rw [if_neg (not_or.mpr ⟨h1, h2⟩), if_neg (by rw [hc]; exact Bool.false_ne_true),
      hp]

/-- Witness for C5 on fresh concrete strings: a successful real conversion,
a failed real conversion, a successful integer conversion, and a failed
integer conversion. -/
theorem parse_value_spec_witness :
    parse_value "7,5" = Cell.real (15 / 2) ∧
    parse_value "a.b" = Cell.text "a.b" ∧
    parse_value "42" = Cell.int 42 ∧
    parse_value "x" = Cell.text "x" := by
  have c7 : '7'.toNat = 55 := rfl
  have c5 : '5'.toNat = 53 := rfl
  refine ⟨parse_value_spec.2.2.2.2.1 "7,5" (15 / 2) (by decide) (by decide)
      (by decide) ?_,
    parse_value_spec.2.2.2.2.2.1 "a.b" (by decide) (by decide) (by decide)
      (by decide),
    parse_value_spec.2.2.2.2.2.2.1 "42" 42 (by decide) (by decide) (by decide)
      (by decide),
    parse_value_spec.2.2.2.2.2.2.2 "x" (by decide) (by decide) (by decide)
      (by decide)⟩
  norm_num +decide [cleanChars, pyFloatChars, mantissaVal, splitExp, splitDot,
    unsignedInt, validGroup, groupCore, digitsVal, c5, c7]

/-! ## The Weighted-Penalty Scorer (C8) -/

/-- C8: for each record the Weighted-Penalty score is the linear weighted
sum over the scaled feature vector minus the non-linear penalty
`tanh(raw_pe / 50)` computed from the un-scaled P/E ratio (column 5 of the
un-normalized matrix `X`). -/
theorem weighted_penalty_structure (S X : List (List ℚ)) (i : ℕ)
    (hiS : i < S.length) (hiX : i < X.length) :
    (weightedScores S X).getD i 0 =
      ((dotQ (S.getD i []) weights : ℚ) : ℝ) -
        Real.tanh ((((X.getD i []).getD 5 0 : ℚ) : ℝ) / 50) := by
  have hlen : i < (weightedScores S X).length := by
    rw [weightedScores, List.length_zipWith]
    exact lt_min hiS hiX
  rw [List.getD_eq_getElem _ _ hlen]
  unfold weightedScores
  rw [List.getElem_zipWith]
  rw [List.getD_eq_getElem S [] hiS, List.getD_eq_getElem X [] hiX]

/-- Witness for C8 at a concrete one-record pair of matrices. -/
theorem weighted_penalty_structure_witness :
    (weightedScores [[(1 : ℚ), 0, 0, 0, 0, 0, 0, 0, 0]]
        [[(0 : ℚ), 0, 0, 0, 0, 100, 0, 0, 0]]).getD 0 0 =
      ((dotQ [(1 : ℚ), 0, 0, 0, 0, 0, 0, 0, 0] weights : ℚ) : ℝ) -
        Real.tanh (((([(0 : ℚ), 0, 0, 0, 0, 100, 0, 0, 0] : List ℚ).getD 5 0 :
          ℚ) : ℝ) / 50) := by
  simpa using weighted_penalty_structure
    [[(1 : ℚ), 0, 0, 0, 0, 0, 0, 0, 0]] [[(0 : ℚ), 0, 0, 0, 0, 100, 0, 0, 0]] 0
    (by norm_num) (by norm_num)

/-! ## Lemmas: the Ranker's stable descending sort -/

lemma insertScored_perm (x : Scored) (l : List Scored) :
    (insertScored x l).Perm (x :: l) := by
  induction l with
  | nil => exact List.Perm.refl _
  | cons y ys ih =>
    rw [insertScored]
    by_cases h : oLt y.2 x.2
    · rw [if_pos h]
    · rw [if_neg h]
      exact (ih.cons y).trans (List.Perm.swap x y ys)

lemma foldl_insert_perm (l acc : List Scored) :
    (l.foldl (fun a x => insertScored x a) acc).Perm (acc ++ l) := by
  induction l generalizing acc with
  | nil => simp
  | cons x xs ih =>
    rw [List.foldl_cons]
    refine (ih (insertScored x acc)).trans ?_
    refine (List.Perm.append_right xs (insertScored_perm x acc)).trans ?_
    simpa using List.perm_middle.symm

lemma sortScored_perm (l : List Scored) : (sortScored l).Perm l := by
  simpa using foldl_insert_perm l []

lemma oGe_of_not_oLt {a b : Option ℝ} (ha : ∃ x : ℝ, a = some x)
    (hb : ∃ y : ℝ, b = some y) (h : ¬ oLt b a) : oGe b a := by
  rcases ha with ⟨x, hx⟩
  rcases hb with ⟨y, hy⟩
  subst hx hy
  exact not_lt.mp (fun hlt => h hlt)

lemma oGe_of_oLt {a b : Option ℝ} (h : oLt a b) : oGe b a := by
  cases a with
  | none => cases h
  | some x =>
    cases b with
    | none => cases h
    | some y => exact le_of_lt h

lemma oGe_trans {a b c : Option ℝ} (hab : oGe a b) (hbc : oGe b c) :
    oGe a c := by
  cases a <;> cases b <;> cases c <;> simp_all [oGe]
  exact le_trans hbc hab

lemma insertScored_sorted {x : Scored} {l : List Scored}
    (hx : ∃ v : ℝ, x.2 = some v) (hl : ∀ p ∈ l, ∃ v : ℝ, p.2 = some v)
    (hs : l.Pairwise (fun a b => oGe a.2 b.2)) :
    (insertScored x l).Pairwise (fun a b => oGe a.2 b.2) := by
  induction l with
  | nil => simp [insertScored]
  | cons y ys ih =>
    rcases List.pairwise_cons.mp hs with ⟨hs1, hs2⟩
    have hy : ∃ v : ℝ, y.2 = some v := hl y (List.mem_cons_self y ys)
    rw [insertScored]
    by_cases h : oLt y.2 x.2
    · rw [if_pos h]
      refine List.pairwise_cons.mpr ⟨?_, hs⟩
      intro b hb
      rcases List.mem_cons.mp hb with h1 | h1
      · rw [h1]; exact oGe_of_oLt h
      · exact oGe_trans (oGe_of_oLt h) (hs1 b h1)
    · rw [if_neg h]
      refine List.pairwise_cons.mpr ⟨?_, ?_⟩
      · intro b hb
        have hb2 := (insertScored_perm x ys).mem_iff.mp hb
        rcases List.mem_cons.mp hb2 with h1 | h1
        · rw [h1]; exact oGe_of_not_oLt hx hy h
        · exact hs1 b h1
      · exact ih (fun p hp => hl p (List.mem_cons_of_mem y hp)) hs2

lemma foldl_insert_sorted (l acc : List Scored)
    (hacc_s : acc.Pairwise (fun a b => oGe a.2 b.2))
    (hacc_a : ∀ p ∈ acc, ∃ v : ℝ, p.2 = some v)
    (hl : ∀ p ∈ l, ∃ v : ℝ, p.2 = some v) :
    (l.foldl (fun a x => insertScored x a) acc).Pairwise
      (fun a b => oGe a.2 b.2) := by
  induction l generalizing acc with
  | nil => exact hacc_s
  | cons x xs ih =>
    rw [List.foldl_cons]
    have hx : ∃ v : ℝ, x.2 = some v := hl x (List.mem_cons_self x xs)
    refine ih (insertScored x acc) (insertScored_sorted hx hacc_a hacc_s) ?_
      (fun p hp => hl p (List.mem_cons_of_mem x hp))
    intro p hp
    rcases List.mem_cons.mp ((insertScored_perm x acc).mem_iff.mp hp) with h1 | h1
    · rw [h1]; exact hx
    · exact hacc_a p h1

lemma sortScored_sorted {l : List Scored}
    (hl : ∀ p ∈ l, ∃ v : ℝ, p.2 = some v) :
    (sortScored l).Pairwise (fun a b => oGe a.2 b.2) :=
  foldl_insert_sorted l [] (List.Pairwise.nil) (by simp) hl

lemma withScore_nil (q : ℝ) : withScore q [] = [] := rfl

lemma withScore_cons (q : ℝ) (x : Scored) (l : List Scored) :
    withScore q (x :: l) =
      if x.2 = some q then x :: withScore q l else withScore q l := by
  unfold withScore
  rw [List.filter_cons]
  by_cases h : x.2 = some q
  · rw [if_pos h, if_pos (by simpa using h)]
  · rw [if_neg h, if_neg (by simpa using h)]

lemma withScore_eq_nil_of_all_lt {q : ℝ} {l : List Scored}
    (h : ∀ p ∈ l, ∃ v : ℝ, p.2 = some v ∧ v < q) :
    withScore q l = [] := by
  induction l with
  | nil => exact withScore_nil q
  | cons z zs ih =>
    rcases h z (List.mem_cons_self z zs) with ⟨zv, hzv, hlt⟩
    have hzq : z.2 ≠ some q := by
      rw [hzv]
      exact fun hh => ne_of_lt hlt (Option.some.inj hh)
    rw [withScore_cons, if_neg hzq]
    exact ih (fun p hp => h p (List.mem_cons_of_mem z hp))

/-- Records scoring `q` are absent from any ranked list whose head scores
strictly below `q`. -/
lemma withScore_eq_nil_of_lt {q : ℝ} {y : Scored} {ys : List Scored}
    (hy : oLt y.2 (some q))
    (hys : ∀ p ∈ ys, ∃ v : ℝ, p.2 = some v)
    (hs1 : ∀ b ∈ ys, oGe y.2 b.2) :
    withScore q (y :: ys) = [] := by
  cases hq : y.2 with
  | none => rw [hq] at hy; cases hy
  | some yv =>
    rw [hq] at hy
    have hyv : yv < q := hy
    refine withScore_eq_nil_of_all_lt ?_
    intro p hp
    rcases List.mem_cons.mp hp with h1 | h1
    · exact ⟨yv, by rw [h1]; exact ⟨hq, hyv⟩⟩
    · rcases hys p h1 with ⟨pv, hpv⟩
      have hpz := hs1 p h1
      rw [hq, hpv] at hpz
      exact ⟨pv, hpv, lt_of_le_of_lt hpz hyv⟩

lemma withScore_insertScored {x : Scored} {l : List Scored} (q : ℝ)
    (hl : ∀ p ∈ l, ∃ v : ℝ, p.2 = some v)
    (hs : l.Pairwise (fun a b => oGe a.2 b.2)) :
    withScore q (insertScored x l) =
      if x.2 = some q then withScore q l ++ [x] else withScore q l := by
  induction l with
  | nil =>
    rw [insertScored, withScore_cons, withScore_nil]
    by_cases h : x.2 = some q
    · rw [if_pos h, if_pos h]; rfl
    · rw [if_neg h, if_neg h]
  | cons y ys ih =>
    rcases List.pairwise_cons.mp hs with ⟨hs1, hs2⟩
    have hys : ∀ p ∈ ys, ∃ v : ℝ, p.2 = some v :=
      fun p hp => hl p (List.mem_cons_of_mem y hp)
    rw [insertScored]
    by_cases h : oLt y.2 x.2
    · rw [if_pos h]
      by_cases hxq : x.2 = some q
      · have hnil : withScore q (y :: ys) = [] := by
          refine withScore_eq_nil_of_lt ?_ hys hs1
          rw [← hxq]; exact h
        rw [if_pos hxq, withScore_cons, if_pos hxq, hnil]
        rfl
      · rw [if_neg hxq, withScore_cons, if_neg hxq]
    · rw [if_neg h, withScore_cons, ih hys hs2, withScore_cons]
      by_cases hyq : y.2 = some q <;> by_cases hxq : x.2 = some q
      · rw [if_pos hyq, if_pos hxq, if_pos hxq, if_pos hyq, List.cons_append]
      · rw [if_pos hyq, if_neg hxq, if_neg hxq, if_pos hyq]
      · rw [if_neg hyq, if_pos hxq, if_pos hxq, if_neg hyq]
      · rw [if_neg hyq, if_neg hxq, if_neg hxq, if_neg hyq]

lemma withScore_foldl_insert (l acc : List Scored) (q : ℝ)
    (hacc_s : acc.Pairwise (fun a b => oGe a.2 b.2))
    (hacc_a : ∀ p ∈ acc, ∃ v : ℝ, p.2 = some v)
    (hl : ∀ p ∈ l, ∃ v : ℝ, p.2 = some v) :
    withScore q (l.foldl (fun a x => insertScored x a) acc) =
      withScore q acc ++ withScore q l := by
  induction l generalizing acc with
  | nil => rw [List.foldl_nil, withScore_nil, List.append_nil]
  | cons x xs ih =>
    rw [List.foldl_cons]
    have hx : ∃ v : ℝ, x.2 = some v := hl x (List.mem_cons_self x xs)
    have hacc2 : ∀ p ∈ insertScored x acc, ∃ v : ℝ, p.2 = some v := by
      intro p hp
      rcases List.mem_cons.mp ((insertScored_perm x acc).mem_iff.mp hp) with
        h1 | h1
      · rw [h1]; exact hx
      · exact hacc_a p h1
    rw [ih (insertScored x acc) (insertScored_sorted hx hacc_a hacc_s) hacc2
      (fun p hp => hl p (List.mem_cons_of_mem x hp))]
    rw [withScore_insertScored q hacc_a hacc_s, withScore_cons]
    by_cases hxq : x.2 = some q
    · rw [if_pos hxq, if_pos hxq, List.append_assoc, List.singleton_append]
    · rw [if_neg hxq, if_neg hxq]

lemma withScore_sortScored {l : List Scored} (q : ℝ)
    (hl : ∀ p ∈ l, ∃ v : ℝ, p.2 = some v) :
    withScore q (sortScored l) = withScore q l := by
  have h := withScore_foldl_insert l [] q List.Pairwise.nil (by simp) hl
  simpa [sortScored, withScore_nil] using h

/-- C10: the Ranker's descending sort is stable — records with equal
composite scores keep their original ingestion order (the subsequence with
any given score is unchanged) — and its output is a permutation of the
input records, each paired with exactly one appended composite score. -/
theorem ranker_stable_descending (matrix : List Row)
    (scores : List (Option ℝ)) (hs : ∀ s ∈ scores, ∃ x : ℝ, s = some x) :
    (rank matrix scores).Perm (matrix.zip scores) ∧
    (rank matrix scores).Pairwise (fun a b => oGe a.2 b.2) ∧
    ∀ q : ℝ, withScore q (rank matrix scores) = withScore q (matrix.zip scores) := by
  have hzip : ∀ p ∈ matrix.zip scores, ∃ v : ℝ, p.2 = some v := by
    intro p hp
    exact hs p.2 (List.of_mem_zip hp).2
  exact ⟨sortScored_perm _, sortScored_sorted hzip,
    fun q => withScore_sortScored q hzip⟩

/-- Witness for C10 on three concrete records, the first and third of which
tie with score 1. -/
theorem ranker_stable_descending_witness :
    (rank [[Cell.int 1], [Cell.int 2], [Cell.int 3]]
        [some 1, some 2, some 1]).Perm
      ([[Cell.int 1], [Cell.int 2], [Cell.int 3]].zip
        [some 1, some 2, some 1]) ∧
    (rank [[Cell.int 1], [Cell.int 2], [Cell.int 3]]
        [some 1, some 2, some 1]).Pairwise (fun a b => oGe a.2 b.2) ∧
    ∀ q : ℝ, withScore q (rank [[Cell.int 1], [Cell.int 2], [Cell.int 3]]
        [some 1, some 2, some 1]) =
      withScore q ([[Cell.int 1], [Cell.int 2], [Cell.int 3]].zip
        [some 1, some 2, some 1]) := by
  refine ranker_stable_descending _ _ ?_
  intro s hsmem
  rcases List.mem_cons.mp hsmem with h | h
  · exact ⟨1, h⟩
  · rcases List.mem_cons.mp h with h1 | h1
    · exact ⟨2, h1⟩
    · exact ⟨1, by simpa using h1⟩

/-! ## Lemmas: feature extraction and the assembled engine -/

lemma cellsToFloats_cons {c : Cell} {cs : List Cell} {l : List ℚ}
    (h : cellsToFloats (c :: cs) = some l) :
    ∃ q qs, cellToFloat c = some q ∧ cellsToFloats cs = some qs ∧
      l = q :: qs := by
  rw [cellsToFloats] at h
  cases hc : cellToFloat c <;> cases hcs : cellsToFloats cs <;>
    rw [hc, hcs] at h <;> simp_all

lemma cellsToFloats_length : ∀ {cs : List Cell} {l : List ℚ},
    cellsToFloats cs = some l → l.length = cs.length := by
  intro cs
  induction cs with
  | nil => intro l h; rw [cellsToFloats] at h; simp_all
  | cons c cs ih =>
    intro l h
    rcases cellsToFloats_cons h with ⟨q, qs, _, hcs, hl⟩
    rw [hl, List.length_cons, List.length_cons, ih hcs]

lemma rowFeatures_ok_length {row : Row} {f : List ℚ}
    (h : rowFeatures row = .ok f) : f.length = 9 := by
  rw [rowFeatures] at h
  split at h
  · exact absurd h (by simp)
  · split at h
    · rename_i fs hm
      have : fs = f := by injection h
      rw [← this, cellsToFloats_length hm]
      rfl
    · exact absurd h (by simp)

lemma numericData_ok_cons {r : Row} {rs : List Row} {feats : List (List ℚ)}
    (h : numericData (r :: rs) = .ok feats) :
    ∃ f fs, rowFeatures r = .ok f ∧ numericData rs = .ok fs ∧
      feats = f :: fs := by
  rw [numericData] at h
  cases hr : rowFeatures r <;> cases hrs : numericData rs <;>
    rw [hr, hrs] at h <;> simp_all

lemma numericData_ok_forall₂ : ∀ {matrix : List Row} {feats : List (List ℚ)},
    numericData matrix = .ok feats →
      List.Forall₂ (fun r f => rowFeatures r = .ok f) matrix feats := by
  intro matrix
  induction matrix with
  | nil =>
    intro feats h
    rw [numericData] at h
    have : ([] : List (List ℚ)) = feats := by injection h
    rw [← this]
    exact List.Forall₂.nil
  | cons r rs ih =>
    intro feats h
    rcases numericData_ok_cons h with ⟨f, fs, hr, hrs, hfeats⟩
    rw [hfeats]
    exact List.Forall₂.cons hr (ih hrs)

lemma numericData_ok_length {matrix : List Row} {feats : List (List ℚ)}
    (h : numericData matrix = .ok feats) : feats.length = matrix.length :=
  (numericData_ok_forall₂ h).length_eq.symm

lemma forall₂_exists_left {α β : Type} {R : α → β → Prop} :
    ∀ {l1 : List α} {l2 : List β}, List.Forall₂ R l1 l2 →
      ∀ b ∈ l2, ∃ a ∈ l1, R a b := by
  intro l1 l2 h
  induction h with
  | nil => intro b hb; cases hb
  | cons hr _ ih =>
    intro b hb
    rcases List.mem_cons.mp hb with h1 | h1
    · exact ⟨_, List.mem_cons_self _ _, by rw [h1]; exact hr⟩
    · rcases ih b h1 with ⟨a, ha, hab⟩
      exact ⟨a, List.mem_cons_of_mem _ ha, hab⟩

lemma numericData_row_length {matrix : List Row} {feats : List (List ℚ)}
    (h : numericData matrix = .ok feats) : ∀ f ∈ feats, f.length = 9 := by
  intro f hf
  rcases forall₂_exists_left (numericData_ok_forall₂ h) f hf with ⟨a, _, hr⟩
  exact rowFeatures_ok_length hr

lemma length_minmaxScale (X : List (List ℚ)) :
    (minmaxScale X).length = X.length := by
  simp [minmaxScale]

lemma length_topsisScores (S : List (List ℚ)) :
    (topsisScores S).length = S.length := by
  simp [topsisScores]

lemma length_weightedScores (S X : List (List ℚ)) :
    (weightedScores S X).length = min S.length X.length := by
  simp [weightedScores]

lemma length_normalizeR (arr : List ℝ) :
    (normalizeR arr).length = arr.length := by
  simp [normalizeR]

lemma length_normalizeOpt (arr : List (Option ℝ)) :
    (normalizeOpt arr).length = arr.length := by
  unfold normalizeOpt
  cases optMin arr <;> cases optMax arr <;> simp

lemma length_zipWith3 {α β γ δ : Type} (f : α → β → γ → δ) :
    ∀ (la : List α) (lb : List β) (lc : List γ),
      (zipWith3 f la lb lc).length = min la.length (min lb.length lc.length) := by
  intro la
  induction la with
  | nil => intro lb lc; cases lb <;> cases lc <;> simp [zipWith3]
  | cons a as ih =>
    intro lb lc
    cases lb with
    | nil => simp [zipWith3]
    | cons b bs =>
      cases lc with
      | nil => simp [zipWith3]
      | cons c cs =>
        simp only [zipWith3, List.length_cons, ih bs cs]
        omega

lemma length_finalScores (pcaN : List ℝ) (topsisN : List (Option ℝ))
    (weightedN : List ℝ) :
    (finalScores pcaN topsisN weightedN).length =
      min pcaN.length (min topsisN.length weightedN.length) :=
  length_zipWith3 _ _ _ _

lemma analyzeWith_ok {pca : List ℝ} {matrix : List Row}
    {feats : List (List ℚ)} (hfeats : numericData matrix = .ok feats)
    (hne : feats ≠ []) :
    analyzeWith pca matrix = .ok (rank matrix
      (finalScores (normalizeR pca)
        (normalizeOpt (topsisScores (minmaxScale feats)))
        (normalizeR (weightedScores (minmaxScale feats) feats)))) := by
  have h1 : feats.isEmpty = false := by
    cases feats with
    | nil => exact absurd rfl hne
    | cons f fs => rfl
  unfold analyzeWith
  rw [hfeats]
  simp [h1]

lemma rowFeatures_closing_zero {row : Row} {f : List ℚ}
    (h : rowFeatures row = .ok f)
    (hz : cellIsZero (row.getD 3 (.int 0)) = true) :
    ∃ v, cellToFloat (row.getD 2 (.int 0)) = some v ∧
      f.getD 0 0 = v ∧ f.getD 1 0 = v := by
  rw [rowFeatures, if_pos hz] at h
  split at h
  · exact absurd h (by simp)
  · split at h
    · rename_i fs hm
      have hf : fs = f := by injection h
      rcases cellsToFloats_cons hm with ⟨q, qs, hq, hqs, hl⟩
      rcases cellsToFloats_cons hqs with ⟨q2, qs2, hq2, hqs2, hl2⟩
      have hqq : q2 = q := by
        rw [hq] at hq2
        exact (Option.some.inj hq2).symm
      refine ⟨q, hq, ?_, ?_⟩
      · rw [← hf, hl]
        rfl
      · rw [← hf, hl, hl2, hqq]
        rfl
    · exact absurd h (by simp)

lemma forall₂_getD {α β : Type} {R : α → β → Prop} {l1 : List α}
    {l2 : List β} (h : List.Forall₂ R l1 l2) :
    ∀ {i : ℕ}, i < l1.length → ∀ (d1 : α) (d2 : β),
      R (l1.getD i d1) (l2.getD i d2) := by
  induction h with
  | nil => intro i hi d1 d2; simp at hi
  | cons hr ht ih =>
    intro i hi d1 d2
    cases i with
    | zero => simpa using hr
    | succ n =>
      simp only [List.getD_cons_succ]
      exact ih (by simpa using hi) d1 d2

lemma length_final_eq {pca : List ℝ} {matrix : List Row}
    {feats : List (List ℚ)} (hfeats : numericData matrix = .ok feats)
    (hlen : pca.length = matrix.length) :
    (finalScores (normalizeR pca)
      (normalizeOpt (topsisScores (minmaxScale feats)))
      (normalizeR (weightedScores (minmaxScale feats) feats))).length =
      matrix.length := by
  rw [length_finalScores, length_normalizeR, length_normalizeOpt,
    length_topsisScores, length_minmaxScale, length_normalizeR,
    length_weightedScores, length_minmaxScale, hlen,
    numericData_ok_length hfeats]
  simp

/-- C9: whenever a record's closing cell (position 3) holds the number
zero, the opening cell (position 2) is substituted for it in the
nine-element feature vector — features 0 and 1 both hold the opening value
— while the stored records of the engine's output are exactly the input
rows (a permutation, each row's cells, including the closing cell,
unchanged; only the paired score is appended). -/
theorem closing_fallback (matrix : List Row) (pca : List ℝ)
    (feats : List (List ℚ)) (i : ℕ)
    (hlen : pca.length = matrix.length)
    (hne : matrix ≠ [])
    (hfeats : numericData matrix = .ok feats)
    (hi : i < matrix.length)
    (hz : cellIsZero ((matrix.getD i []).getD 3 (.int 0)) = true) :
    (∃ v, cellToFloat ((matrix.getD i []).getD 2 (.int 0)) = some v ∧
      (feats.getD i []).getD 0 0 = v ∧ (feats.getD i []).getD 1 0 = v) ∧
    ∃ out, analyzeWith pca matrix = .ok out ∧
      (out.map Prod.fst).Perm matrix := by
  have hrow : rowFeatures (matrix.getD i []) = .ok (feats.getD i []) :=
    forall₂_getD (numericData_ok_forall₂ hfeats) hi [] []
  have hfne : feats ≠ [] := by
    intro h0
    rw [h0] at hfeats
    have := numericData_ok_length hfeats
    simp at this
    exact hne (List.length_eq_zero.mp (this.symm))
  refine ⟨rowFeatures_closing_zero hrow hz, _, analyzeWith_ok hfeats hfne, ?_⟩
  have hfin := length_final_eq hfeats hlen
  have hmap : ((matrix.zip (finalScores (normalizeR pca)
      (normalizeOpt (topsisScores (minmaxScale feats)))
      (normalizeR (weightedScores (minmaxScale feats) feats)))).map
        Prod.fst) = matrix :=
    List.map_fst_zip _ _ (le_of_eq hfin.symm)
  have hperm := (sortScored_perm (matrix.zip (finalScores (normalizeR pca)
    (normalizeOpt (topsisScores (minmaxScale feats)))
    (normalizeR (weightedScores (minmaxScale feats) feats))))).map Prod.fst
  rw [hmap] at hperm
  exact hperm

/-- Witness for C9: a two-record matrix whose first record has closing
cell `0`; its feature vector carries the opening value `5` in both the
opening and the (substituted) closing slots, and the engine's stored
output rows are a permutation of the unmodified input rows. -/
theorem closing_fallback_witness :
    (∃ v, cellToFloat ((([[Cell.int 1, Cell.text "A", Cell.int 5, Cell.int 0,
        Cell.int 1, Cell.int 2, Cell.int 3, Cell.int 4, Cell.int 5,
        Cell.int 6, Cell.int 7],
      [Cell.int 2, Cell.text "B", Cell.int 1, Cell.int 2, Cell.int 3,
        Cell.int 4, Cell.int 5, Cell.int 6, Cell.int 7, Cell.int 8,
        Cell.int 9]] : List Row).getD 0 []).getD 2 (.int 0)) = some v ∧
      (([[(5 : ℚ), 5, 1, 2, 3, 4, 5, 6, 7],
        [1, 2, 3, 4, 5, 6, 7, 8, 9]].getD 0 []).getD 0 0) = v ∧
      (([[(5 : ℚ), 5, 1, 2, 3, 4, 5, 6, 7],
        [1, 2, 3, 4, 5, 6, 7, 8, 9]].getD 0 []).getD 1 0) = v) ∧
    ∃ out, analyzeWith [0, 0]
        [[Cell.int 1, Cell.text "A", Cell.int 5, Cell.int 0, Cell.int 1,
          Cell.int 2, Cell.int 3, Cell.int 4, Cell.int 5, Cell.int 6,
          Cell.int 7],
        [Cell.int 2, Cell.text "B", Cell.int 1, Cell.int 2, Cell.int 3,
          Cell.int 4, Cell.int 5, Cell.int 6, Cell.int 7, Cell.int 8,
          Cell.int 9]] = .ok out ∧
      (out.map Prod.fst).Perm
        [[Cell.int 1, Cell.text "A", Cell.int 5, Cell.int 0, Cell.int 1,
          Cell.int 2, Cell.int 3, Cell.int 4, Cell.int 5, Cell.int 6,
          Cell.int 7],
        [Cell.int 2, Cell.text "B", Cell.int 1, Cell.int 2, Cell.int 3,
          Cell.int 4, Cell.int 5, Cell.int 6, Cell.int 7, Cell.int 8,
          Cell.int 9]] :=
  closing_fallback
    [[Cell.int 1, Cell.text "A", Cell.int 5, Cell.int 0, Cell.int 1,
      Cell.int 2, Cell.int 3, Cell.int 4, Cell.int 5, Cell.int 6, Cell.int 7],
    [Cell.int 2, Cell.text "B", Cell.int 1, Cell.int 2, Cell.int 3,
      Cell.int 4, Cell.int 5, Cell.int 6, Cell.int 7, Cell.int 8, Cell.int 9]]
    [0, 0] [[5, 5, 1, 2, 3, 4, 5, 6, 7], [1, 2, 3, 4, 5, 6, 7, 8, 9]] 0
    rfl (by simp)
    (by norm_num +decide [numericData, rowFeatures, cellsToFloats,
      cellToFloat, cellIsZero])
    (by norm_num) (by decide)

/-! ## Lemmas: the Score Combiner and the composite output (C1) -/

lemma eps_pos : 0 < eps := by norm_num [eps]

lemma topsisScoreRow_bounded {X : List (List ℚ)} (hne : X ≠ []) {j : ℕ}
    (hj : j < 9) (hnd : colMin X j ≠ colMax X j) {r : List ℚ}
    (hr : r ∈ minmaxScale X) :
    ∃ s, topsisScoreRow (minmaxScale X) r = some s ∧ 0 ≤ s ∧ s ≤ 1 := by
  have hden := topsisDen_ne_zero hne hj hnd hr
  have hden_pos : 0 < distTo r (idealBest (minmaxScale X)) +
      distTo r (idealWorst (minmaxScale X)) :=
    lt_of_le_of_ne (add_nonneg (distTo_nonneg _ _) (distTo_nonneg _ _))
      (Ne.symm hden)
  exact ⟨_, topsisScoreRow_of_den_ne hden,
    div_nonneg (distTo_nonneg _ _) (le_of_lt hden_pos),
    (div_le_one hden_pos).mpr (le_add_of_nonneg_left (distTo_nonneg _ _))⟩

lemma topsisScores_all_bounded {X : List (List ℚ)} (hne : X ≠ []) {j : ℕ}
    (hj : j < 9) (hnd : colMin X j ≠ colMax X j) :
    ∀ t ∈ topsisScores (minmaxScale X),
      ∃ s, t = some s ∧ 0 ≤ s ∧ s ≤ 1 := by
  intro t ht
  rcases List.mem_map.mp ht with ⟨r, hr, hfr⟩
  rcases topsisScoreRow_bounded hne hj hnd hr with ⟨s, hs, h01⟩
  exact ⟨s, by rw [← hfr, hs], h01⟩

lemma all_some_exists_map {l : List (Option ℝ)}
    (h : ∀ x ∈ l, ∃ v : ℝ, x = some v) : ∃ t : List ℝ, l = t.map some := by
  induction l with
  | nil => exact ⟨[], rfl⟩
  | cons x xs ih =>
    rcases h x (List.mem_cons_self x xs) with ⟨v, hv⟩
    rcases ih (fun y hy => h y (List.mem_cons_of_mem x hy)) with ⟨t, ht⟩
    exact ⟨v :: t, by rw [hv, ht]; rfl⟩

lemma mapM_loop_id (t : List ℝ) (acc : List ℝ) :
    List.mapM.loop (id : Option ℝ → Option ℝ) (t.map some) acc =
      some (acc.reverse ++ t) := by
  induction t generalizing acc with
  | nil => simp [List.mapM.loop]
  | cons x xs ih =>
    simp only [List.map_cons, List.mapM.loop, id]
    show List.mapM.loop id (List.map some xs) (x :: acc) =
      some (acc.reverse ++ x :: xs)
    rw [ih (x :: acc)]
    simp

lemma mapM_id_map_some (t : List ℝ) :
    (t.map some).mapM (id : Option ℝ → Option ℝ) = some t := by
  rw [List.mapM, mapM_loop_id]
  rfl

lemma normalizeOpt_map_some (t : List ℝ) :
    normalizeOpt (t.map some) = (normalizeR t).map some := by
  unfold normalizeOpt optMin optMax
  rw [mapM_id_map_some]
  simp [normalizeR, List.map_map, Function.comp]

lemma normalizeR_bounds {arr : List ℝ} (hne : arr ≠ []) :
    ∀ x ∈ normalizeR arr, 0 ≤ x ∧ x < 1 := by
  intro x hx
  rcases List.mem_map.mp hx with ⟨v, hv, hfx⟩
  have h1 : listMin arr ≤ v := listMin_le_of_mem hv
  have h2 : v ≤ listMax arr := le_listMax_of_mem hv
  have h3 : listMin arr ≤ listMax arr := listMin_le_listMax hne
  have heps := eps_pos
  have hden : 0 < listMax arr - listMin arr + eps := by linarith
  constructor
  · rw [← hfx]
    exact div_nonneg (by linarith) (le_of_lt hden)
  · rw [← hfx, div_lt_one hden]
    linarith

lemma mem_zipWith3 {α β γ δ : Type} {f : α → β → γ → δ} :
    ∀ {la : List α} {lb : List β} {lc : List γ} {x : δ},
      x ∈ zipWith3 f la lb lc →
        ∃ a ∈ la, ∃ b ∈ lb, ∃ c ∈ lc, x = f a b c := by
  intro la
  induction la with
  | nil => intro lb lc x hx; cases lb <;> cases lc <;> simp [zipWith3] at hx
  | cons a as ih =>
    intro lb lc x hx
    cases lb with
    | nil => simp [zipWith3] at hx
    | cons b bs =>
      cases lc with
      | nil => simp [zipWith3] at hx
      | cons c cs =>
        simp only [zipWith3] at hx
        rcases List.mem_cons.mp hx with h | h
        · exact ⟨a, List.mem_cons_self a as, b, List.mem_cons_self b bs,
            c, List.mem_cons_self c cs, h⟩
        · rcases ih h with ⟨a', ha, b', hb, c', hc, hx'⟩
          exact ⟨a', List.mem_cons_of_mem a ha, b', List.mem_cons_of_mem b hb,
            c', List.mem_cons_of_mem c hc, hx'⟩

lemma scrapeTable_length {rows : List (List String)}
    (hcells : ∀ r ∈ rows, r ≠ []) (hn : 2 ≤ rows.length) :
    (scrapeTable rows).length = rows.length - 1 ∧ scrapeTable rows ≠ [] := by
  unfold scrapeTable
  have hfil : rows.filter (fun r => !r.isEmpty) = rows := by
    refine List.filter_eq_self.mpr (fun a ha => ?_)
    simpa using hcells a ha
  rw [hfil]
  rw [if_pos (by rw [List.length_map]; omega)]
  constructor
  · rw [List.length_drop, List.length_map]
  · intro h0
    have := congrArg List.length h0
    rw [List.length_drop, List.length_map] at this
    simp at this
    omega

/-- C1 (amended): for every well-formed input whose feature matrix has at
least one non-constant column, the pipeline succeeds and its output has
every composite score in `[0, 1]`, is sorted non-increasingly by composite
score, and contains exactly one record per input data row (the input rows
minus the header). -/
theorem composite_ranked_output (rows : List (List String)) (pca : List ℝ)
    (feats : List (List ℚ)) (j : ℕ)
    (hcells : ∀ r ∈ rows, r ≠ [])
    (hn : 2 ≤ rows.length)
    (hfeats : numericData (scrapeTable rows) = .ok feats)
    (hlen : pca.length = (scrapeTable rows).length)
    (hj : j < 9) (hnd : colMin feats j ≠ colMax feats j) :
    ∃ out, pipeline pca rows = .ok out ∧
      (∀ p ∈ out, ∃ q : ℝ, p.2 = some q ∧ 0 ≤ q ∧ q ≤ 1) ∧
      out.Pairwise (fun a b => oGe a.2 b.2) ∧
      out.length = rows.length - 1 := by
  obtain ⟨hmlen, hmne⟩ := scrapeTable_length hcells hn
  have hflen : feats.length = (scrapeTable rows).length :=
    numericData_ok_length hfeats
  have hfne : feats ≠ [] := by
    intro h0
    rw [h0] at hflen
    exact hmne (List.length_eq_zero.mp hflen.symm)
  have hOK : pipeline pca rows = .ok (rank (scrapeTable rows)
      (finalScores (normalizeR pca)
        (normalizeOpt (topsisScores (minmaxScale feats)))
        (normalizeR (weightedScores (minmaxScale feats) feats)))) := by
    unfold pipeline
    exact analyzeWith_ok hfeats hfne
  -- bounds on the three normalized score vectors
  have htb := topsisScores_all_bounded hfne hj hnd
  rcases all_some_exists_map (fun x hx => (htb x hx).imp
    (fun s hs => hs.1)) with ⟨treal, htr⟩
  have htreal_ne : treal ≠ [] := by
    intro h0
    rw [h0] at htr
    simp at htr
    have := length_topsisScores (minmaxScale feats)
    rw [htr] at this
    simp [length_minmaxScale] at this
    exact hfne (List.length_eq_zero.mp this.symm)
  have hpca_ne : pca ≠ [] := by
    intro h0
    rw [h0] at hlen
    simp at hlen
    exact hmne (List.length_eq_zero.mp hlen.symm)
  have hw_ne : weightedScores (minmaxScale feats) feats ≠ [] := by
    intro h0
    have := length_weightedScores (minmaxScale feats) feats
    rw [h0] at this
    simp [length_minmaxScale] at this
    exact hfne (List.length_eq_zero.mp this.symm)
  have hFbound : ∀ s ∈ finalScores (normalizeR pca)
      (normalizeOpt (topsisScores (minmaxScale feats)))
      (normalizeR (weightedScores (minmaxScale feats) feats)),
      ∃ q : ℝ, s = some q ∧ 0 ≤ q ∧ q ≤ 1 := by
    intro s hs
    rcases mem_zipWith3 hs with ⟨pv, hpv, tv, htv, wv, hwv, hsval⟩
    rcases normalizeR_bounds hpca_ne pv hpv with ⟨hp0, hp1⟩
    rcases normalizeR_bounds hw_ne wv hwv with ⟨hw0, hw1⟩
    rw [htr, normalizeOpt_map_some] at htv
    rcases List.mem_map.mp htv with ⟨tvv, htvv, htveq⟩
    rcases normalizeR_bounds htreal_ne tvv htvv with ⟨ht0, ht1⟩
    refine ⟨(pv + tvv + wv) / 3, ?_, ?_, ?_⟩
    · rw [hsval, ← htveq]
      rfl
    · positivity
    · rw [div_le_one (by norm_num)]
      linarith
  have hzip_some : ∀ p ∈ (scrapeTable rows).zip (finalScores (normalizeR pca)
      (normalizeOpt (topsisScores (minmaxScale feats)))
      (normalizeR (weightedScores (minmaxScale feats) feats))),
      ∃ v : ℝ, p.2 = some v := by
    intro p hp
    rcases hFbound p.2 (List.of_mem_zip hp).2 with ⟨q, hq, _⟩
    exact ⟨q, hq⟩
  refine ⟨_, hOK, ?_, sortScored_sorted hzip_some, ?_⟩
  · intro p hp
    have hp2 := (sortScored_perm _).mem_iff.mp hp
    exact hFbound p.2 (List.of_mem_zip hp2).2
  · have h1 := (sortScored_perm ((scrapeTable rows).zip (finalScores
      (normalizeR pca) (normalizeOpt (topsisScores (minmaxScale feats)))
      (normalizeR (weightedScores (minmaxScale feats) feats))))).length_eq
    rw [rank, h1, List.length_zip, length_final_eq hfeats hlen, min_self,
      hmlen]

/-- Witness for C1 at a concrete three-row input (header plus two distinct
data rows): the pipeline succeeds with two ranked records, scores in
`[0, 1]`, sorted non-increasingly. -/
theorem composite_ranked_output_witness :
    ∃ out, pipeline [0, 0]
        [["ID", "Company", "Opening", "Closing", "Change", "Monthly",
          "Annual", "PE", "Dividend", "Volume", "Value"],
        ["1", "A", "1", "2", "3", "4", "5", "6", "7", "8", "9"],
        ["2", "B", "9", "8", "7", "6", "5", "4", "3", "2", "1"]] = .ok out ∧
      (∀ p ∈ out, ∃ q : ℝ, p.2 = some q ∧ 0 ≤ q ∧ q ≤ 1) ∧
      out.Pairwise (fun a b => oGe a.2 b.2) ∧
      out.length = 2 := by
  have hS : scrapeTable
      [["ID", "Company", "Opening", "Closing", "Change", "Monthly",
        "Annual", "PE", "Dividend", "Volume", "Value"],
      ["1", "A", "1", "2", "3", "4", "5", "6", "7", "8", "9"],
      ["2", "B", "9", "8", "7", "6", "5", "4", "3", "2", "1"]] =
      [[Cell.int 1, Cell.text "A", Cell.int 1, Cell.int 2, Cell.int 3,
        Cell.int 4, Cell.int 5, Cell.int 6, Cell.int 7, Cell.int 8,
        Cell.int 9],
      [Cell.int 2, Cell.text "B", Cell.int 9, Cell.int 8, Cell.int 7,
        Cell.int 6, Cell.int 5, Cell.int 4, Cell.int 3, Cell.int 2,
        Cell.int 1]] := by decide
  exact composite_ranked_output _ [0, 0]
    [[1, 2, 3, 4, 5, 6, 7, 8, 9], [9, 8, 7, 6, 5, 4, 3, 2, 1]] 0
    (by decide) (by norm_num)
    (by rw [hS]; norm_num +decide [numericData, rowFeatures, cellsToFloats,
      cellToFloat, cellIsZero])
    (by rw [hS]; rfl)
    (by norm_num)
    (by norm_num [colMin, colMax, colVals, listMin, listMax])

/-- C4: an input of only the header row (or no rows at all) makes `scrape`
return the empty matrix, and `analyze` then RAISES — `np.array([])` is a
1-D size-0 array that `MinMaxScaler.fit_transform` rejects with a
`ValueError` — instead of yielding an empty ranked sequence. -/
theorem header_only_input_errors :
    scrapeTable [["ID", "Company", "Opening", "Closing", "Change", "Monthly",
      "Annual", "PE", "Dividend", "Volume", "Value"]] = [] ∧
    scrapeTable ([] : List (List String)) = [] ∧
    pipeline [] [["ID", "Company", "Opening", "Closing", "Change", "Monthly",
      "Annual", "PE", "Dividend", "Volume", "Value"]] =
      .error "ValueError: empty array passed to MinMaxScaler" ∧
    pipeline [] ([] : List (List String)) =
      .error "ValueError: empty array passed to MinMaxScaler" :=
  ⟨by decide, rfl, rfl, rfl⟩

lemma finalScores_none_single {p w : List ℝ} (hp : p ≠ []) (hw : w ≠ []) :
    finalScores p [none] w = [none] := by
  cases p with
  | nil => exact absurd rfl hp
  | cons a as =>
    cases w with
    | nil => exact absurd rfl hw
    | cons b bs => simp [finalScores, zipWith3]

/-- C1 counterexample: on a single data row every feature column is
trivially constant, the unguarded TOPSIS division produces NaN, and the
pipeline returns that record with composite score NaN (`none`) — not a
value in `[0, 1]`. -/
theorem composite_ranked_output_cex :
    ∃ out, pipeline [0]
        [["ID", "Company", "Opening", "Closing", "Change", "Monthly",
          "Annual", "PE", "Dividend", "Volume", "Value"],
        ["1", "A", "1", "2", "3", "4", "5", "6", "7", "8", "9"]] = .ok out ∧
      ¬ ∀ p ∈ out, ∃ q : ℝ, p.2 = some q ∧ 0 ≤ q ∧ q ≤ 1 := by
  have hS : scrapeTable
      [["ID", "Company", "Opening", "Closing", "Change", "Monthly",
        "Annual", "PE", "Dividend", "Volume", "Value"],
      ["1", "A", "1", "2", "3", "4", "5", "6", "7", "8", "9"]] =
      [[Cell.int 1, Cell.text "A", Cell.int 1, Cell.int 2, Cell.int 3,
        Cell.int 4, Cell.int 5, Cell.int 6, Cell.int 7, Cell.int 8,
        Cell.int 9]] := by decide
  have hfeats : numericData
      [[Cell.int 1, Cell.text "A", Cell.int 1, Cell.int 2, Cell.int 3,
        Cell.int 4, Cell.int 5, Cell.int 6, Cell.int 7, Cell.int 8,
        Cell.int 9]] = .ok [[1, 2, 3, 4, 5, 6, 7, 8, 9]] := by
    norm_num +decide [numericData, rowFeatures, cellsToFloats, cellToFloat,
      cellIsZero]
  have hne : ([[(1 : ℚ), 2, 3, 4, 5, 6, 7, 8, 9]] : List (List ℚ)) ≠ [] := by
    simp
  have hall : ∀ x ∈ ([[(1 : ℚ), 2, 3, 4, 5, 6, 7, 8, 9]] : List (List ℚ)),
      x = [1, 2, 3, 4, 5, 6, 7, 8, 9] := by
    intro x hx
    simpa using hx
  have hOK := @analyzeWith_ok [0] _ _ hfeats (by simp)
  -- the TOPSIS vector is the single NaN entry
  have htops : topsisScores (minmaxScale [[(1 : ℚ), 2, 3, 4, 5, 6, 7, 8, 9]]) =
      [none] := by
    have hSlen : (minmaxScale [[(1 : ℚ), 2, 3, 4, 5, 6, 7, 8, 9]]).length = 1 := by
      rw [length_minmaxScale]
      rfl
    cases hSc : minmaxScale [[(1 : ℚ), 2, 3, 4, 5, 6, 7, 8, 9]] with
    | nil => rw [hSc] at hSlen; simp at hSlen
    | cons z zs =>
      cases zs with
      | cons z2 zs2 => rw [hSc] at hSlen; simp at hSlen
      | nil =>
        have hz : topsisScoreRow
            (minmaxScale [[(1 : ℚ), 2, 3, 4, 5, 6, 7, 8, 9]]) z = none :=
          (topsis_degenerate hne hall z
            (by rw [hSc]; exact List.mem_cons_self z [])).2.2.2.2
        rw [hSc] at hz
        show List.map (topsisScoreRow [z]) [z] = [none]
        rw [List.map_cons, List.map_nil, hz]
  -- the combined score vector is the single NaN entry
  have hfin : finalScores (normalizeR [0])
      (normalizeOpt (topsisScores (minmaxScale [[(1 : ℚ), 2, 3, 4, 5, 6, 7, 8, 9]])))
      (normalizeR (weightedScores
        (minmaxScale [[(1 : ℚ), 2, 3, 4, 5, 6, 7, 8, 9]])
        [[(1 : ℚ), 2, 3, 4, 5, 6, 7, 8, 9]])) = [none] := by
    rw [htops]
    rw [show normalizeOpt [(none : Option ℝ)] = [none] from rfl]
    refine finalScores_none_single ?_ ?_
    · simp [normalizeR]
    · intro h0
      have := congrArg List.length h0
      rw [length_normalizeR, length_weightedScores, length_minmaxScale] at this
      simp at this
  refine ⟨[([Cell.int 1, Cell.text "A", Cell.int 1, Cell.int 2, Cell.int 3,
    Cell.int 4, Cell.int 5, Cell.int 6, Cell.int 7, Cell.int 8, Cell.int 9],
    none)], ?_, ?_⟩
  · show analyzeWith [0] (scrapeTable
      [["ID", "Company", "Opening", "Closing", "Change", "Monthly",
        "Annual", "PE", "Dividend", "Volume", "Value"],
      ["1", "A", "1", "2", "3", "4", "5", "6", "7", "8", "9"]]) = _
    rw [hS, hOK, hfin]
    rw [show rank [[Cell.int 1, Cell.text "A", Cell.int 1, Cell.int 2,
      Cell.int 3, Cell.int 4, Cell.int 5, Cell.int 6, Cell.int 7, Cell.int 8,
      Cell.int 9]] [(none : Option ℝ)] =
      [([Cell.int 1, Cell.text "A", Cell.int 1, Cell.int 2, Cell.int 3,
        Cell.int 4, Cell.int 5, Cell.int 6, Cell.int 7, Cell.int 8,
        Cell.int 9], none)] from by
      simp [rank, sortScored, insertScored]]
  · intro hforall
    rcases hforall _ (List.mem_cons_self _ _) with ⟨q, hq, _⟩
    simp at hq

end SGBV
